import Mathlib

/-
Verification development for the buildcache MSVC wrapper core.

The C++ sources are shallowly embedded:
* strings are represented as `List Char` (`Str`);
* byte strings of the cache-entry codec as `List Nat` (`Bytes`);
* the file system, the hasher and the compressor are parameters;
* fallible C++ code (exceptions) returns `Except`/`Option`.
-/

namespace bcache

/-- Strings of the embedded program (std::string). -/
abbrev Str := List Char

/-- bcache::split (base/string_utils.hpp): split on a delimiter, keeping
empty segments, always returning at least one segment. -/
def splitAux (d : Char) : Str → Str → List Str
  | [], acc => [acc.reverse]
  | c :: rest, acc =>
    if c = d then acc.reverse :: splitAux d rest []
    else splitAux d rest (c :: acc)

/-- bcache::split entry point. -/
def split (s : Str) (d : Char) : List Str := splitAux d s []

/-- bcache::starts_with (base/string_utils.hpp):
`str.substr(0, sub.size()) == sub`. -/
def starts_with (s sub : Str) : Bool :=
  match sub, s with
  | [], _ => true
  | _ :: _, [] => false
  | c :: cs, d :: ds => c == d && starts_with ds cs

/-- Modelled from the spec: `lower_case` (base/unicode_utils.hpp is not in
src/); ASCII case folding, as used for `INCLUDE` entries and extensions. -/
def lower_case (s : Str) : Str := s.map Char.toLower

/-- Modelled from the spec: `string_list_t::split_args` (base/string_list.hpp
is not in src/); a line is tokenized into whitespace-separated tokens,
empty tokens dropped. -/
def split_args (line : Str) : List Str :=
  (split line ' ').filter (fun t => ¬ t = [])

/-- drop_leading_colon (msvc_wrapper.cpp). -/
def drop_leading_colon (s : Str) : Str :=
  match s with
  | ':' :: rest => rest
  | _ => s

/-- The "Expected another item." parse error. -/
def errExpected : Str := "Expected another item.".data

/-- The "Command file nesting too deep." parse error. -/
def errDepth : Str := "Command file nesting too deep.".data

/-- Failure of file::read inside read_lines (missing response file). -/
def errRead : Str := "Failed to read file.".data

/-- InputType (msvc_wrapper.cpp). -/
inductive InputType
  | kUnknown
  | kObject
  | kC
  | kCpp
deriving DecidableEq, Repr

/-- InputFile (msvc_wrapper.cpp). -/
structure InputFile where
  name : Str
  type : InputType
deriving DecidableEq, Repr

/-- DebugFormat (msvc_wrapper.cpp). -/
inductive DebugFormat
  | kNone
  | kObjectFile
  | kSeparateFile
  | kSeparateFileEditAndContinue
deriving DecidableEq, Repr

/-- MergeMode (msvc_wrapper.cpp). -/
inductive MergeMode
  | kAll
  | kSkipCoveredByPreprocess
  | kDirectModeCommonArgs
  | kSkipInputs
deriving DecidableEq, Repr

/-- cmdline_parser_t::flag_option_t. -/
structure flag_option_t where
  enabled : Bool
  value : Str
deriving DecidableEq, Repr

/-- cmdline_parser_t::pch_config_t. -/
structure pch_config_t where
  create : flag_option_t
  use : flag_option_t
  path : Str
  ignore : Bool
deriving DecidableEq, Repr

/-- The state of cmdline_parser_t (its data members, except the
command-file depth counter which is threaded explicitly). -/
structure cmdline_parser_t where
  m_compile_only : Bool
  m_default_input_type : InputType
  m_debug_format : DebugFormat
  m_includes : List Str
  m_defines : List Str
  m_options : List Str
  m_pdb_path : Str
  m_object_path : Str
  m_pch_config : pch_config_t
  m_input_files : List InputFile
deriving DecidableEq, Repr

/-- The freshly constructed cmdline_parser_t (all members default). -/
def initState : cmdline_parser_t :=
  ⟨false, InputType.kObject, DebugFormat.kNone, [], [], [], [], [],
   ⟨⟨false, []⟩, ⟨false, []⟩, [], false⟩, []⟩

/-- cmdline_parser_t::get_option. -/
def get_option (item : Str) : Option Str :=
  match item with
  | [] => none
  | c :: rest => if c = '/' ∨ c = '-' then some rest else none

/-- The sanitize_path lambda inside cmdline_parser_t::parse_list: if the
path begins with a drive letter (second char a colon, length > 2), the
first character is upper-cased (upper_case modelled from the spec as
ASCII upper-casing). -/
def sanitize_path (p : Str) : Str :=
  match p with
  | a :: b :: c :: rest =>
    if b = ':' then Char.toUpper a :: b :: c :: rest else a :: b :: c :: rest
  | _ => p

/-- The retrieve_arg lambda inside cmdline_parser_t::parse_list.
`next` is the next item of the list, when one exists; the Bool of the
result records whether that next item was consumed. -/
def retrieveArg (item : Str) (uses_colon : Bool) (next : Option Str) :
    Except Str (Str × Bool) :=
  let arg := if uses_colon then drop_leading_colon item else item
  if arg = [] then
    if uses_colon then Except.error errExpected
    else
      match next with
      | none => Except.error errExpected
      | some x => Except.ok (x, true)
  else Except.ok (arg, false)

/-- Result of processing one item of the token list in
cmdline_parser_t::parse_list. -/
inductive step_result
  | stop
  | fail (e : Str)
  | update (st : cmdline_parser_t) (used_next : Bool)
  | respfile (name : Str)
deriving DecidableEq, Repr

/-- A parse_list branch that retrieves an option argument and updates the
state with it (the common retrieve_arg-then-assign pattern). -/
def retrieve_update (upd : Str → cmdline_parser_t) (a : Str) (c : Bool)
    (next : Option Str) : step_result :=
  match retrieveArg a c next with
  | .error e => .fail e
  | .ok (v, u) => .update (upd v) u

/-- One iteration of the loop in cmdline_parser_t::parse_list, processing
`item` with `next` the following item (if any).  The branches appear in
source order. -/
def step (st : cmdline_parser_t) (item : Str) (next : Option Str) :
    step_result :=
  match get_option item with
  | some option =>
    if option = "link".data then .stop
    else if option = "c".data then
      .update { st with m_compile_only := true } false
    else if starts_with option ("D".data) then
      retrieve_update (fun v => { st with m_defines := st.m_defines ++ [v] })
        (option.drop 1) false next
    else if starts_with option ("Fd".data) then
      retrieve_update (fun v => { st with m_pdb_path := sanitize_path v })
        (option.drop 2) true next
    else if starts_with option ("Fo".data) then
      retrieve_update (fun v => { st with m_object_path := sanitize_path v })
        (option.drop 2) true next
    else if starts_with option ("Fp".data) then
      retrieve_update
        (fun v => { st with m_pch_config := { st.m_pch_config with path := sanitize_path v } })
        (option.drop 2) true next
    else if starts_with option ("I".data) then
      retrieve_update (fun v => { st with m_includes := st.m_includes ++ [sanitize_path v] })
        (option.drop 1) false next
    else if option = "TC".data then
      .update { st with m_default_input_type := InputType.kC } false
    else if option = "TP".data then
      .update { st with m_default_input_type := InputType.kCpp } false
    else if starts_with option ("Tc".data) || starts_with option ("Tp".data) then
      let file_type :=
        if starts_with option ("Tc".data) then InputType.kC else InputType.kCpp
      retrieve_update
        (fun v => { st with m_input_files := st.m_input_files ++ [⟨sanitize_path v, file_type⟩] })
        (option.drop 2) false next
    else if option = "Y-".data then
      .update { st with m_pch_config := { st.m_pch_config with ignore := true } } false
    else if starts_with option ("Yc".data) then
      .update
        { st with m_pch_config :=
            { st.m_pch_config with create := ⟨true, sanitize_path (option.drop 2)⟩ } } false
    else if starts_with option ("Yu".data) then
      .update
        { st with m_pch_config :=
            { st.m_pch_config with use := ⟨true, sanitize_path (option.drop 2)⟩ } } false
    else if option = "Z7".data then
      .update { st with m_debug_format := DebugFormat.kObjectFile } false
    else if option = "Zi".data then
      .update { st with m_debug_format := DebugFormat.kSeparateFile } false
    else if option = "ZI".data then
      .update { st with m_debug_format := DebugFormat.kSeparateFileEditAndContinue } false
    else
      .update { st with m_options := st.m_options ++ [option] } false
  | none =>
    if starts_with item ("@".data) then .respfile (item.drop 1)
    else
      .update { st with m_input_files := st.m_input_files ++ [⟨item, InputType.kUnknown⟩] } false

/-- cmdline_parser_t::parse_list, parameterized by the handler `h` used for
response files (`@name` items).  The Bool of the result records whether a
`/link` item stopped this list. -/
def parseListH (h : cmdline_parser_t → Str → Except Str cmdline_parser_t) :
    cmdline_parser_t → List Str → Except Str (cmdline_parser_t × Bool)
  | st, [] => .ok (st, false)
  | st, [item] =>
    match step st item none with
    | .stop => .ok (st, true)
    | .fail e => .error e
    | .update st' _ => .ok (st', false)
    | .respfile nm =>
      match h st nm with
      | .error e => .error e
      | .ok st' => .ok (st', false)
  | st, item :: next :: rest =>
    match step st item (some next) with
    | .stop => .ok (st, true)
    | .fail e => .error e
    | .update st' true => parseListH h st' rest
    | .update st' false => parseListH h st' (next :: rest)
    | .respfile nm =>
      match h st nm with
      | .error e => .error e
      | .ok st' => parseListH h st' (next :: rest)

/-- Per-line loop of read_lines as used by cmdline_parser_t::parse_file:
each line is tokenized (parse_line) and parsed; the /link break is local
to the line. -/
def parseLinesH (p : cmdline_parser_t → List Str → Except Str (cmdline_parser_t × Bool)) :
    cmdline_parser_t → List Str → Except Str cmdline_parser_t
  | st, [] => .ok st
  | st, line :: rest =>
    match p st (split_args line) with
    | .error e => .error e
    | .ok (st', _) => parseLinesH p st' rest

/-- cmdline_parser_t::parse_file.  `fs` maps a response-file path to its
decoded list of lines (the I/O of read_lines).  The budget `b` stands for
`100 - depth`: parse_file at depth d (d files already open) runs with
budget 100 - d, and the depth check `++depth > 100` fails exactly when
the budget is exhausted. -/
def parseFileB (fs : Str → Option (List Str)) :
    Nat → cmdline_parser_t → Str → Except Str cmdline_parser_t
  | 0, _, _ => .error errDepth
  | b + 1, st, name =>
    match fs name with
    | none => .error errRead
    | some lines => parseLinesH (parseListH (parseFileB fs b)) st lines

/-- cmdline_parser_t::parse_list at command-file depth 0. -/
def parse_list (fs : Str → Option (List Str)) (st : cmdline_parser_t)
    (l : List Str) : Except Str (cmdline_parser_t × Bool) :=
  parseListH (parseFileB fs 100) st l

/-- cmdline_parser_t::parse_line at command-file depth 0 (the /link break
flag is dropped, as in the void C++ member). -/
def parse_line (fs : Str → Option (List Str)) (st : cmdline_parser_t)
    (line : Str) : Except Str cmdline_parser_t :=
  (parse_list fs st (split_args line)).map (fun r => r.1)

/-- cmdline_parser_t::parse.  `cl` and `post` are the values of the `CL`
and `_CL_` environment variables (none when unset). -/
def parse (fs : Str → Option (List Str)) (cl post : Option Str)
    (argv : List Str) : Except Str cmdline_parser_t :=
  match (match cl with
         | none => Except.ok initState
         | some a => parse_line fs initState a) with
  | .error e => .error e
  | .ok st1 =>
    match (if argv.length > 1 then (parse_list fs st1 (argv.drop 1)).map (fun r => r.1)
           else .ok st1) with
    | .error e => .error e
    | .ok st2 =>
      match post with
      | none => .ok st2
      | some b => parse_line fs st2 b

/-- InputFile::as_arg. -/
def InputFile.as_arg (f : InputFile) : Str :=
  if f.type = InputType.kC then "/Tc".data ++ f.name
  else if f.type = InputType.kCpp then "/Tp".data ++ f.name
  else f.name

/-- cmdline_parser_t::merge.  The string_list_t is built by successive
appends; here it is written as the concatenation of the same segments in
the same order. -/
def merge (p : cmdline_parser_t) (mode : MergeMode) : List Str :=
  (if p.m_compile_only then ["/c".data] else [])
  ++ (if mode ≠ MergeMode.kDirectModeCommonArgs then
        (match p.m_default_input_type with
         | InputType.kC => ["/TC".data]
         | InputType.kCpp => ["/TP".data]
         | _ => [])
      else [])
  ++ (match p.m_debug_format with
      | DebugFormat.kObjectFile => ["/Z7".data]
      | DebugFormat.kSeparateFile => ["/Zi".data]
      | DebugFormat.kSeparateFileEditAndContinue => ["/ZI".data]
      | DebugFormat.kNone => [])
  ++ p.m_options.map (fun o => '/' :: o)
  ++ (if p.m_pdb_path ≠ [] then ["/Fd:".data ++ p.m_pdb_path] else [])
  ++ (if mode ≠ MergeMode.kSkipCoveredByPreprocess then
        p.m_includes.map (fun i => "/I".data ++ i)
        ++ p.m_defines.map (fun d_ => "/D ".data ++ d_)
        ++ (if p.m_object_path ≠ [] then ["/Fo:".data ++ p.m_object_path] else [])
      else [])
  ++ (if p.m_pch_config.create.enabled then
        ["/Yc".data ++ p.m_pch_config.create.value] else [])
  ++ (if p.m_pch_config.use.enabled then
        ["/Yu".data ++ p.m_pch_config.use.value] else [])
  ++ (if p.m_pch_config.ignore then ["/Y-".data] else [])
  ++ (if p.m_pch_config.path ≠ [] then ["/Fp:".data ++ p.m_pch_config.path] else [])
  ++ (if mode = MergeMode.kAll then p.m_input_files.map InputFile.as_arg else [])

/-- string_list_t::join with a single-space separator, as used in the
spec's rendering of merged command lines. -/
def joinSpace : List Str → Str
  | [] => []
  | [t] => t
  | t :: rest => t ++ ' ' :: joinSpace rest

/-- A file system with no readable response files. -/
def noFs : Str → Option (List Str) := fun _ => none

instance {ε α : Type} [DecidableEq ε] [DecidableEq α] : DecidableEq (Except ε α)
  | .error a, .error b =>
    if h : a = b then .isTrue (h ▸ rfl)
    else .isFalse (fun hh => h (Except.error.inj hh))
  | .error _, .ok _ => .isFalse (fun hh => Except.noConfusion hh)
  | .ok _, .error _ => .isFalse (fun hh => Except.noConfusion hh)
  | .ok a, .ok b =>
    if h : a = b then .isTrue (h ▸ rfl)
    else .isFalse (fun hh => h (Except.ok.inj hh))

/-! ### read_lines (claim C10) -/
/-- std::getline applied repeatedly to a buffer: lines are the segments
between newline characters; a final newline terminates the last line
rather than opening an empty one, and an empty buffer yields no line. -/
def getlineAux : Str → Str → List Str
  | [], acc => [acc.reverse]
  | c :: rest, acc =>
    if c = '\n' then
      match rest with
      | [] => [acc.reverse]
      | _ => acc.reverse :: getlineAux rest []
    else getlineAux rest (c :: acc)

/-- The sequence of lines std::getline extracts from a buffer. -/
def getlineSplit : Str → List Str
  | [] => []
  | s => getlineAux s []

/-- The body of the line loop of read_lines (msvc_wrapper.cpp): strip a
trailing carriage return by inspecting `line.back()`.  `back()` on an
empty line is an out-of-bounds access, modelled as `none`. -/
def strip_cr (line : Str) : Option Str :=
  match line with
  | [] => none
  | _ => some (if line.getLast? = some '\r' then line.dropLast else line)

/-- read_lines (msvc_wrapper.cpp) on an already BOM-decoded buffer,
returning the lines handed to the callback, or `none` when the loop
accesses `back()` of an empty line. -/
def read_lines (content : Str) : Option (List Str) :=
  (getlineSplit content).mapM strip_cr

/-! ### filter_cache_hit (claim C2) -/
/-- Lookup in the per-run dependency ledger
(msvc_wrapper_t::get_dependency_digest over m_dependencies). -/
def lookupL : List (Str × Nat) → Str → Option Nat
  | [], _ => none
  | (k, v) :: rest, key => if key = k then some v else lookupL rest key

/-- Store into the per-run dependency ledger
(msvc_wrapper_t::set_dependency_digest). -/
def setL : List (Str × Nat) → Str → Nat → List (Str × Nat)
  | [], k, v => [(k, v)]
  | (k', v') :: rest, k, v =>
    if k = k' then (k, v) :: rest else (k', v') :: setL rest k v

/-- msvc_wrapper_t::filter_cache_hit.  `fsHash` models hashing a file on
disk; `none` stands for any exception (e.g. the file no longer exists).
The dependency record of the entry is the list of (include, digest)
pairs; the result carries the verdict and the updated ledger. -/
def filter_cache_hit (fsHash : Str → Option Nat) :
    List (Str × Nat) → List (Str × Nat) → Bool × List (Str × Nat)
  | ledger, [] => (true, ledger)
  | ledger, (incl, cached) :: rest =>
    match lookupL ledger incl with
    | some digest =>
      if digest = cached then filter_cache_hit fsHash ledger rest
      else (false, ledger)
    | none =>
      match fsHash incl with
      | none => (false, ledger)
      | some digest =>
        if digest = cached then filter_cache_hit fsHash (setL ledger incl digest) rest
        else (false, setL ledger incl digest)

/-- The current digest of a dependency: the ledger entry when present,
otherwise the digest of the file on disk. -/
def currentDigest (fsHash : Str → Option Nat) (ledger : List (Str × Nat))
    (path : Str) : Option Nat :=
  match lookupL ledger path with
  | some d => some d
  | none => fsHash path

/-! ### run_for_miss dependency records (claim C3) -/
/-- Lexicographic order of std::string keys, as used by std::map. -/
def ltStr : Str → Str → Bool
  | [], [] => false
  | [], _ :: _ => true
  | _ :: _, [] => false
  | c :: cs, c' :: cs' => if c < c' then true else if c' < c then false else ltStr cs cs'

/-- Ordered insert-or-assign, the effect of `m[key] = value` on a
std::map represented as its sorted association list. -/
def mapInsert {κ β : Type} [DecidableEq κ] (lt : κ → κ → Bool) :
    List (κ × β) → κ → β → List (κ × β)
  | [], k, v => [(k, v)]
  | (k', v') :: rest, k, v =>
    if lt k k' then (k, v) :: (k', v') :: rest
    else if k = k' then (k, v) :: rest
    else (k', v') :: mapInsert lt rest k v

/-- msvc_wrapper_t constructor: the lower-cased non-empty entries of the
INCLUDE environment variable (m_env_include_paths). -/
def env_include_paths (v : Str) : List Str :=
  ((split v ';').filter (fun p => ¬ p = [])).map lower_case

/-- msvc_wrapper_t::is_system_include: the raw dependency path is compared
by starts_with against each (lower-cased) INCLUDE entry. -/
def is_system_include (envPaths : List Str) (path : Str) : Bool :=
  envPaths.any (fun ip => starts_with path ip)

/-- The dependency-record construction loop of msvc_wrapper_t::run_for_miss
for one missed input: for each include reported by the compiler, a ledger
hit is recorded directly; otherwise system includes are skipped, and the
rest are hashed (a hashing failure propagates, modelled as `none`),
recorded, and memoized in the ledger. -/
def buildDeps (sysPaths : List Str) (fsHash : Str → Option Nat) :
    List (Str × Nat) → List (Str × Nat) → List Str →
      Option (List (Str × Nat) × List (Str × Nat))
  | ledger, record, [] => some (record, ledger)
  | ledger, record, incl :: rest =>
    match lookupL ledger incl with
    | some digest =>
      buildDeps sysPaths fsHash ledger (mapInsert ltStr record incl digest) rest
    | none =>
      if is_system_include sysPaths incl then buildDeps sysPaths fsHash ledger record rest
      else
        match fsHash incl with
        | none => none
        | some digest =>
          buildDeps sysPaths fsHash (setL ledger incl digest)
            (mapInsert ltStr record incl digest) rest

/-! ### Cache entry codec (claims C4, C8, C9) -/
/-- Byte strings of the serialized cache entry (each element a byte). -/
abbrev Bytes := List Nat

/-- Modelled from the spec: serialize::from_int (base/serializer_utils.hpp
is not under src/); a 32-bit signed integer stored little-endian. -/
def from_int (n : Int) : Bytes :=
  let u := (n % 4294967296).toNat
  [u % 256, u / 256 % 256, u / 65536 % 256, u / 16777216 % 256]

/-- Modelled from the spec: serialize::to_int; reads four little-endian
bytes and sign-folds the 32-bit value.  `none` models the
"premature end of serialized data" exception. -/
def to_int : Bytes → Option (Int × Bytes)
  | b0 :: b1 :: b2 :: b3 :: rest =>
    let u := b0 + 256 * b1 + 65536 * b2 + 16777216 * b3
    some (if 2147483648 ≤ u then (u : Int) - 4294967296 else (u : Int), rest)
  | _ => none

/-- Modelled from the spec: serialize::from_string; a length-prefixed byte
sequence (the length a 32-bit signed int). -/
def from_string (s : Bytes) : Bytes :=
  from_int (s.length : Int) ++ s

/-- Modelled from the spec: serialize::to_string; a negative length or one
exceeding the remaining data is the "premature end" exception. -/
def to_string (data : Bytes) : Option (Bytes × Bytes) :=
  match to_int data with
  | none => none
  | some (n, rest) =>
    if 0 ≤ n ∧ n.toNat ≤ rest.length then some (rest.take n.toNat, rest.drop n.toNat)
    else none

/-- Modelled from the spec: serialize::from_vector; a count followed by
length-prefixed strings. -/
def from_vector (v : List Bytes) : Bytes :=
  from_int (v.length : Int) ++ (v.map from_string).flatten

/-- Element loop of serialize::to_vector. -/
def to_vector_go : Nat → Bytes → Option (List Bytes × Bytes)
  | 0, rest => some ([], rest)
  | n + 1, rest =>
    match to_string rest with
    | none => none
    | some (s, rest') =>
      match to_vector_go n rest' with
      | none => none
      | some (l, rest'') => some (s :: l, rest'')

/-- Modelled from the spec: serialize::to_vector (a non-positive count
yields an empty vector, as in the C++ int loop). -/
def to_vector (data : Bytes) : Option (List Bytes × Bytes) :=
  match to_int data with
  | none => none
  | some (n, rest) => to_vector_go n.toNat rest

/-- Lexicographic byte order of std::string map keys. -/
def ltB : Bytes → Bytes → Bool
  | [], [] => false
  | [], _ :: _ => true
  | _ :: _, [] => false
  | c :: cs, c' :: cs' => if c < c' then true else if c' < c then false else ltB cs cs'

/-- Reading a raw fixed-size hash value (the local to_string overload of
cache_entry.cpp), with its "premature end" bounds check. -/
def to_hash (hs : Nat) (data : Bytes) : Option (Bytes × Bytes) :=
  if hs ≤ data.length then some (data.take hs, data.drop hs) else none

/-- from_map (cache_entry.cpp): count, then each key as a string followed
by the raw hash bytes, in map (sorted) order. -/
def from_dep_map (deps : List (Bytes × Bytes)) : Bytes :=
  from_int (deps.length : Int) ++ (deps.map (fun kv => from_string kv.1 ++ kv.2)).flatten

/-- Pair loop of to_map (cache_entry.cpp): `result[key] = value` on a
std::map is ordered insert-or-assign. -/
def to_dep_map_go (hs : Nat) : Nat → Bytes → List (Bytes × Bytes) →
    Option (List (Bytes × Bytes) × Bytes)
  | 0, rest, acc => some (acc, rest)
  | n + 1, rest, acc =>
    match to_string rest with
    | none => none
    | some (k, rest') =>
      match to_hash hs rest' with
      | none => none
      | some (v, rest'') => to_dep_map_go hs n rest'' (mapInsert ltB acc k v)

/-- to_map (cache_entry.cpp): the dependency record read back as a map. -/
def to_dep_map (hs : Nat) (data : Bytes) : Option (List (Bytes × Bytes) × Bytes) :=
  match to_int data with
  | none => none
  | some (n, rest) => to_dep_map_go hs n.toNat rest []

/-- Modelled from the spec: the v2 writer's string→string file map,
encoded as a count followed by string pairs. -/
def from_v2_map (m : List (Bytes × Bytes)) : Bytes :=
  from_int (m.length : Int) ++ (m.map (fun kv => from_string kv.1 ++ from_string kv.2)).flatten

/-- Pair loop of serialize::to_map for the v2 string→string map. -/
def to_v2_map_go : Nat → Bytes → List (Bytes × Bytes) →
    Option (List (Bytes × Bytes) × Bytes)
  | 0, rest, acc => some (acc, rest)
  | n + 1, rest, acc =>
    match to_string rest with
    | none => none
    | some (k, rest') =>
      match to_string rest' with
      | none => none
      | some (v, rest'') => to_v2_map_go n rest'' (mapInsert ltB acc k v)

/-- Modelled from the spec: serialize::to_map for the v2 file map. -/
def to_v2_map (data : Bytes) : Option (List (Bytes × Bytes) × Bytes) :=
  match to_int data with
  | none => none
  | some (n, rest) => to_v2_map_go n.toNat rest []

/-- v2_files_to_vector (cache_entry.cpp): the keys of the map in map
(iteration, i.e. sorted) order. -/
def v2_files_to_vector (m : List (Bytes × Bytes)) : List Bytes :=
  m.map (fun kv => kv.1)

/-- cache_entry_t::comp_mode_t. -/
inductive comp_mode_t
  | NONE
  | ALL
deriving DecidableEq, Repr

/-- The underlying int of a comp_mode_t enumerator. -/
def comp_mode_t.toInt : comp_mode_t → Int
  | .NONE => 0
  | .ALL => 1

/-- The static_cast of a read int back to comp_mode_t.  Only the
comparison with ALL (value 1) is observable downstream, which this
matches for every int. -/
def comp_mode_of_int (n : Int) : comp_mode_t :=
  if n = 1 then comp_mode_t.ALL else comp_mode_t.NONE

/-- cache_entry_t: the members in declaration order; the dependency
record (a std::map) is its sorted association list. -/
structure cache_entry_t where
  m_file_ids : List Bytes
  m_dependency_records : List (Bytes × Bytes)
  m_compression_mode : comp_mode_t
  m_std_out : Bytes
  m_std_err : Bytes
  m_return_code : Int
  m_valid : Bool
deriving DecidableEq, Repr

/-- cache_entry_t::serialize (writer version 4).  `compress` models
comp::compress. -/
def cache_entry_t.serialize (compress : Bytes → Bytes) (E : cache_entry_t) : Bytes :=
  from_int 4
  ++ from_int E.m_compression_mode.toInt
  ++ from_vector E.m_file_ids
  ++ (if E.m_compression_mode = comp_mode_t.ALL then
        from_string (compress E.m_std_out) ++ from_string (compress E.m_std_err)
      else from_string E.m_std_out ++ from_string E.m_std_err)
  ++ from_int E.m_return_code
  ++ from_dep_map E.m_dependency_records

/-- cache_entry_t::deserialize.  `hs` is the fixed hash size,
`decompress` models comp::decompress; `none` models the exceptions
(unsupported version, premature end of data). -/
def cache_entry_t.deserialize (hs : Nat) (decompress : Bytes → Bytes)
    (data : Bytes) : Option cache_entry_t :=
  match to_int data with
  | none => none
  | some (format_version, r1) =>
    if 4 < format_version then none
    else
      match (if 2 ≤ format_version
             then (to_int r1).map (fun p => (comp_mode_of_int p.1, p.2))
             else some (comp_mode_t.NONE, r1)) with
      | none => none
      | some (cm, r2) =>
        match (if 3 ≤ format_version then to_vector r2
               else (to_v2_map r2).map (fun p => (v2_files_to_vector p.1, p.2))) with
        | none => none
        | some (file_ids, r3) =>
          match to_string r3 with
          | none => none
          | some (out0, r4) =>
            match to_string r4 with
            | none => none
            | some (err0, r5) =>
              match to_int r5 with
              | none => none
              | some (rc, r6) =>
                match (if 4 ≤ format_version then to_dep_map hs r6
                       else some (([] : List (Bytes × Bytes)), r6)) with
                | none => none
                | some (deps, _r7) =>
                  some ⟨file_ids, deps, cm,
                        (if cm = comp_mode_t.ALL then decompress out0 else out0),
                        (if cm = comp_mode_t.ALL then decompress err0 else err0),
                        rc, true⟩

/-- A 32-bit-signed-representable integer. -/
def intRange (n : Int) : Prop := -2147483648 ≤ n ∧ n < 2147483648

instance (n : Int) : Decidable (intRange n) := by
  unfold intRange
  exact inferInstance

/-- The intrinsic well-formedness of a constructed cache entry: a valid
entry whose sizes fit 32-bit signed counts, whose hash values have the
hasher's fixed size, and whose dependency map is strictly key-sorted
(the std::map invariant). -/
def cache_entry_wf (hs : Nat) (E : cache_entry_t) : Prop :=
  E.m_valid = true
  ∧ intRange E.m_return_code
  ∧ E.m_file_ids.length < 2147483648
  ∧ (∀ s ∈ E.m_file_ids, s.length < 2147483648)
  ∧ E.m_dependency_records.length < 2147483648
  ∧ (∀ p ∈ E.m_dependency_records, p.1.length < 2147483648 ∧ p.2.length = hs)
  ∧ E.m_dependency_records.Pairwise (fun a b => ltB a.1 b.1 = true)
  ∧ E.m_std_out.length < 2147483648
  ∧ E.m_std_err.length < 2147483648

/-- A minimal well-formed blob for a given format version: empty file
list, empty outputs, return code 0, empty dependency record; the
compression field exists only from version 2 on, the dependency record
only from version 4 on. -/
def minBlob (v : Int) : Bytes :=
  from_int v ++ (if 2 ≤ v then from_int 0 else [])
  ++ from_int 0 ++ from_int 0 ++ from_int 0 ++ from_int 0
  ++ (if 4 ≤ v then from_int 0 else [])

/-! ### Claim C7 -/
/-- An option string (as stored in m_options, without its leading slash)
that matches none of the recognized branches of the parse_list loop:
re-reading `/` followed by it lands in the final catch-all branch, which
appends it to m_options unchanged. -/
def optOther (o : Str) : Prop :=
  ¬ o = "link".data ∧ ¬ o = "c".data
  ∧ starts_with o ("D".data) = false
  ∧ starts_with o ("Fd".data) = false
  ∧ starts_with o ("Fo".data) = false
  ∧ starts_with o ("Fp".data) = false
  ∧ starts_with o ("I".data) = false
  ∧ ¬ o = "TC".data ∧ ¬ o = "TP".data
  ∧ starts_with o ("Tc".data) = false
  ∧ starts_with o ("Tp".data) = false
  ∧ ¬ o = "Y-".data
  ∧ starts_with o ("Yc".data) = false
  ∧ starts_with o ("Yu".data) = false
  ∧ ¬ o = "Z7".data ∧ ¬ o = "Zi".data ∧ ¬ o = "ZI".data

instance (o : Str) : Decidable (optOther o) := by
  unfold optOther; infer_instance

/-- An input file whose as_arg token re-parses to exactly the same entry:
typed (C/C++) files need a non-empty, sanitize-fixed name; an Unknown
file name must not look like an option or a response file; Object inputs
have no faithful rendering (as_arg emits the bare name, which re-parses
as Unknown). -/
def inputOk (f : InputFile) : Prop :=
  (f.type = InputType.kC ∨ f.type = InputType.kCpp →
    ¬ f.name = [] ∧ sanitize_path f.name = f.name)
  ∧ (f.type = InputType.kUnknown →
    get_option f.name = none ∧ starts_with f.name ("@".data) = false)
  ∧ ¬ f.type = InputType.kObject

instance (f : InputFile) : Decidable (inputOk f) := by
  unfold inputOk; infer_instance

/-- Conditions under which merge(All) output re-parses to the original
model (with each define gaining a leading space): the default input type
is not the parse-time-only Unknown, stored options are unrecognized on
re-read, paths are fixed points of sanitize_path, disabled pch flags
carry no value, and input files re-render faithfully. -/
def reparse_safe (p : cmdline_parser_t) : Prop :=
  ¬ p.m_default_input_type = InputType.kUnknown
  ∧ (∀ o ∈ p.m_options, optOther o)
  ∧ (∀ i ∈ p.m_includes, ¬ i = [] ∧ sanitize_path i = i)
  ∧ sanitize_path p.m_pdb_path = p.m_pdb_path
  ∧ sanitize_path p.m_object_path = p.m_object_path
  ∧ sanitize_path p.m_pch_config.path = p.m_pch_config.path
  ∧ sanitize_path p.m_pch_config.create.value = p.m_pch_config.create.value
  ∧ (p.m_pch_config.create.enabled = false → p.m_pch_config.create.value = [])
  ∧ sanitize_path p.m_pch_config.use.value = p.m_pch_config.use.value
  ∧ (p.m_pch_config.use.enabled = false → p.m_pch_config.use.value = [])
  ∧ (∀ f ∈ p.m_input_files, inputOk f)

instance (p : cmdline_parser_t) : Decidable (reparse_safe p) := by
  unfold reparse_safe; infer_instance

/-- A sample parse result used to exercise the merge-then-reparse
property: `cl /c /IA /DX foo.cpp`. -/
def reparse_example : cmdline_parser_t :=
  ⟨true, InputType.kObject, DebugFormat.kNone, [['A']], [['X']], [], [], [],
   ⟨⟨false, []⟩, ⟨false, []⟩, [], false⟩, [⟨"foo.cpp".data, InputType.kUnknown⟩]⟩

/-! ### Single-step characterizations of parse_list -/
/-- Processing `/Fd<suffix>`: the colon-capable options never consume the
next item; an empty suffix (after dropping one leading colon) is an
error. -/
theorem step_Fd (st : cmdline_parser_t) (suffix : Str) (n : Option Str) :
    step st ("/Fd".data ++ suffix) n =
      (if drop_leading_colon suffix = [] then .fail errExpected
       else .update { st with m_pdb_path := sanitize_path (drop_leading_colon suffix) } false) := by
  by_cases hc : drop_leading_colon suffix = [] <;>
    simp [step, retrieve_update, get_option, starts_with, retrieveArg, hc]

/-- Processing `/Fo<suffix>`. -/
theorem step_Fo (st : cmdline_parser_t) (suffix : Str) (n : Option Str) :
    step st ("/Fo".data ++ suffix) n =
      (if drop_leading_colon suffix = [] then .fail errExpected
       else .update { st with m_object_path := sanitize_path (drop_leading_colon suffix) } false) := by
  by_cases hc : drop_leading_colon suffix = [] <;>
    simp [step, retrieve_update, get_option, starts_with, retrieveArg, hc]

/-- Processing `/Fp<suffix>`. -/
theorem step_Fp (st : cmdline_parser_t) (suffix : Str) (n : Option Str) :
    step st ("/Fp".data ++ suffix) n =
      (if drop_leading_colon suffix = [] then .fail errExpected
       else .update
         { st with m_pch_config := { st.m_pch_config with path := sanitize_path (drop_leading_colon suffix) } } false) := by
  by_cases hc : drop_leading_colon suffix = [] <;>
    simp [step, retrieve_update, get_option, starts_with, retrieveArg, hc]

/-- A step that updates the state without consuming the next item commutes
with the parse_list loop. -/
theorem parseListH_cons_of_step (h : cmdline_parser_t → Str → Except Str cmdline_parser_t)
    (st st' : cmdline_parser_t) (item : Str) (rest : List Str)
    (hstep : ∀ n, step st item n = .update st' false) :
    parseListH h st (item :: rest) = parseListH h st' rest := by
  cases rest with
  | nil => simp [parseListH, hstep none]
  | cons next rest2 => simp [parseListH, hstep (some next)]

/-- A failing step fails the whole parse_list. -/
theorem parseListH_cons_fail (h : cmdline_parser_t → Str → Except Str cmdline_parser_t)
    (st : cmdline_parser_t) (item : Str) (rest : List Str) (e : Str)
    (hstep : ∀ n, step st item n = .fail e) :
    parseListH h st (item :: rest) = .error e := by
  cases rest with
  | nil => simp [parseListH, hstep none]
  | cons next rest2 => simp [parseListH, hstep (some next)]

/-! ### Claim C6 -/
/-- C6 (counterexample): the claim says that `/Fd` with no colon and an
empty suffix takes its value from the following token, so
`/Fd x.pdb` would parse with pdb path `x.pdb`; the code instead raises
"Expected another item." and never consumes the next token. -/
theorem fd_separate_token_fails :
    parse_list noFs initState ["/Fd".data, "x.pdb".data] = .error errExpected := by
  decide

/-- C6 (amended): for the colon-capable options `Fd`, `Fo` and `Fp`, if
the suffix after removing one leading colon is non-empty, that suffix
(drive-letter canonicalized) is the value; otherwise — whether or not a
colon was present — parsing fails with "Expected another item.", and the
next token is never consumed. -/
theorem colon_options_arg (fs : Str → Option (List Str)) (st : cmdline_parser_t)
    (suffix : Str) (rest : List Str) :
    (parse_list fs st (("/Fd".data ++ suffix) :: rest) =
      (if drop_leading_colon suffix = [] then .error errExpected
       else parse_list fs
         { st with m_pdb_path := sanitize_path (drop_leading_colon suffix) } rest))
    ∧ (parse_list fs st (("/Fo".data ++ suffix) :: rest) =
      (if drop_leading_colon suffix = [] then .error errExpected
       else parse_list fs
         { st with m_object_path := sanitize_path (drop_leading_colon suffix) } rest))
    ∧ (parse_list fs st (("/Fp".data ++ suffix) :: rest) =
      (if drop_leading_colon suffix = [] then .error errExpected
       else parse_list fs
         { st with m_pch_config := { st.m_pch_config with path := sanitize_path (drop_leading_colon suffix) } } rest)) := by
  unfold parse_list
  by_cases hc : drop_leading_colon suffix = []
  · rw [if_pos hc, if_pos hc, if_pos hc]
    exact ⟨parseListH_cons_fail _ _ _ _ _ (fun n => by rw [step_Fd, if_pos hc]),
           parseListH_cons_fail _ _ _ _ _ (fun n => by rw [step_Fo, if_pos hc]),
           parseListH_cons_fail _ _ _ _ _ (fun n => by rw [step_Fp, if_pos hc])⟩
  · rw [if_neg hc, if_neg hc, if_neg hc]
    exact ⟨parseListH_cons_of_step _ _ _ _ _ (fun n => by rw [step_Fd, if_neg hc]),
           parseListH_cons_of_step _ _ _ _ _ (fun n => by rw [step_Fo, if_neg hc]),
           parseListH_cons_of_step _ _ _ _ _ (fun n => by rw [step_Fp, if_neg hc])⟩

/-! ### Claim C1 -/
/-- C1 (counterexample): on the spec's S1 argv the code's `merge(All)`
joins to `/c /IC:\inc /Fo:foo.obj foo.cpp`, not to the claimed
`/c /TP /I C:\inc /Fo:foo.obj /Tpfoo.cpp`: no type flag is emitted (the
default input type is still Object), the include is fused with `/I`, and
the input file is rendered from its declared (Unknown) type, not its
effective type. -/
theorem merge_all_s1_spec_ne :
    (parse noFs none none
        ["cl".data, "/c".data, "/I".data, "C:\\inc".data, "foo.cpp".data, "/Fofoo.obj".data]).map
      (fun p => joinSpace (merge p MergeMode.kAll))
      = .ok ("/c /IC:\\inc /Fo:foo.obj foo.cpp".data)
    ∧ ¬ ((parse noFs none none
        ["cl".data, "/c".data, "/I".data, "C:\\inc".data, "foo.cpp".data, "/Fofoo.obj".data]).map
      (fun p => joinSpace (merge p MergeMode.kAll))
      = .ok ("/c /TP /I C:\\inc /Fo:foo.obj /Tpfoo.cpp".data)) := by
  decide

/-- C1 (amended): merge(All) emits `/c` if compile-only; `/TC`/`/TP` when
the default input type is C or Cpp (not when it is the initial Object);
the debug-format flag; each other option prefixed with `/`; `/Fd:<pdb>`;
each include fused as `/I<path>`; each define as a single `/D <value>`
token; `/Fo:<object>`; `/Yc<v>`, `/Yu<v>`, `/Y-`, `/Fp:<path>`; then each
input file rendered from its declared type (`/Tc<name>`, `/Tp<name>`, or
the bare name for Unknown/Object).  For the S1 argv
`cl /c /I C:\inc foo.cpp /Fofoo.obj` (CL unset) this yields the tokens
`/c`, `/IC:\inc`, `/Fo:foo.obj`, `foo.cpp`. -/
theorem merge_all_s1 :
    (parse noFs none none
        ["cl".data, "/c".data, "/I".data, "C:\\inc".data, "foo.cpp".data, "/Fofoo.obj".data]).map
      (fun p => merge p MergeMode.kAll)
      = .ok ["/c".data, "/IC:\\inc".data, "/Fo:foo.obj".data, "foo.cpp".data] := by
  decide

/-- C10 (code_bug): the line loop of read_lines does not guard
`line.back()` by non-emptiness; a response file containing an empty line
(two consecutive line breaks) makes it read the last character of an
empty string, while a CRLF-terminated file without empty lines is
processed fine. -/
theorem read_lines_empty_line_oob :
    read_lines ("a\n\nb".data) = none
    ∧ read_lines ("a\r\nb\r\n".data) = some ["a".data, "b".data] := by
  decide

theorem currentDigest_of_some (fsHash : Str → Option Nat)
    (L : List (Str × Nat)) (p : Str) (d : Nat) (h : lookupL L p = some d) :
    currentDigest fsHash L p = some d := by
  unfold currentDigest
  rw [h]

theorem currentDigest_of_none (fsHash : Str → Option Nat)
    (L : List (Str × Nat)) (p : Str) (h : lookupL L p = none) :
    currentDigest fsHash L p = fsHash p := by
  unfold currentDigest
  rw [h]

theorem lookupL_set (L : List (Str × Nat)) (k : Str) (v : Nat) (key : Str) :
    lookupL (setL L k v) key = if key = k then some v else lookupL L key := by
  induction L with
  | nil => by_cases h : key = k <;> simp [setL, lookupL, h]
  | cons hd tl ih =>
    obtain ⟨k', v'⟩ := hd
    simp only [setL]
    by_cases h1 : k = k'
    · rw [if_pos h1]
      subst h1
      by_cases h2 : key = k <;> simp [lookupL, h2]
    · rw [if_neg h1]
      by_cases h2 : key = k'
      · subst h2
        have h3 : ¬ key = k := fun hh => h1 hh.symm
        simp [lookupL, h3]
      · simp [lookupL, h2, ih]

theorem currentDigest_set (fsHash : Str → Option Nat) (L : List (Str × Nat))
    (k : Str) (d : Nat) (hd : currentDigest fsHash L k = some d) (key : Str) :
    currentDigest fsHash (setL L k d) key = currentDigest fsHash L key := by
  by_cases h : key = k
  · subst h
    have hs : lookupL (setL L key d) key = some d := by
      rw [lookupL_set, if_pos rfl]
    rw [currentDigest_of_some fsHash _ _ _ hs, hd]
  · have hs : lookupL (setL L k d) key = lookupL L key := by
      rw [lookupL_set, if_neg h]
    cases hL : lookupL L key with
    | some d' =>
      rw [currentDigest_of_some fsHash _ _ _ (hs.trans hL),
          currentDigest_of_some fsHash _ _ _ hL]
    | none =>
      rw [currentDigest_of_none fsHash _ _ (hs.trans hL),
          currentDigest_of_none fsHash _ _ hL]

/-- C2: filter_cache_hit(entry) returns true iff, for every
(include, cached_digest) pair in the entry's dependency record, the
current digest of that include — the ledger's entry when present,
otherwise the hash of the file on disk, which is then recorded in the
ledger — equals cached_digest; any hashing failure (fsHash = none,
covering a missing file) yields false rather than an error. -/
theorem filter_cache_hit_iff (fsHash : Str → Option Nat)
    (ledger deps : List (Str × Nat)) :
    (filter_cache_hit fsHash ledger deps).1 = true ↔
      ∀ p ∈ deps, currentDigest fsHash ledger p.1 = some p.2 := by
  induction deps generalizing ledger with
  | nil => simp [filter_cache_hit]
  | cons hd tl ih =>
    obtain ⟨incl, cached⟩ := hd
    simp only [filter_cache_hit]
    cases hL : lookupL ledger incl with
    | some d =>
      have hcd := currentDigest_of_some fsHash ledger incl d hL
      by_cases hdc : d = cached
      · subst hdc
        simp [ih, List.forall_mem_cons, hcd]
      · simp [hdc, List.forall_mem_cons, hcd]
    | none =>
      have hcd0 := currentDigest_of_none fsHash ledger incl hL
      cases hf : fsHash incl with
      | none => simp [List.forall_mem_cons, hcd0, hf]
      | some d =>
        have hcd : currentDigest fsHash ledger incl = some d := by
          rw [hcd0, hf]
        by_cases hdc : d = cached
        · subst hdc
          have hset := currentDigest_set fsHash ledger incl d hcd
          simp [ih, List.forall_mem_cons, hset, hcd]
        · simp [hdc, List.forall_mem_cons, hcd]

theorem mem_mapInsert {κ β : Type} [DecidableEq κ] (lt : κ → κ → Bool)
    (l : List (κ × β)) (k0 : κ) (v0 : β) (k : κ) (v : β) :
    (k, v) ∈ mapInsert lt l k0 v0 → (k, v) ∈ l ∨ (k = k0 ∧ v = v0) := by
  induction l with
  | nil =>
    intro h
    simp [mapInsert] at h
    exact Or.inr h
  | cons hd tl ih =>
    obtain ⟨k', v'⟩ := hd
    intro h
    simp only [mapInsert] at h
    by_cases h1 : lt k0 k' = true
    · rw [if_pos h1] at h
      simp only [List.mem_cons] at h
      rcases h with h | h | h
      · injection h with ha hb
        exact Or.inr ⟨ha, hb⟩
      · exact Or.inl (List.mem_cons.mpr (Or.inl h))
      · exact Or.inl (List.mem_cons.mpr (Or.inr h))
    · rw [if_neg h1] at h
      by_cases h2 : k0 = k'
      · rw [if_pos h2] at h
        simp only [List.mem_cons] at h
        rcases h with h | h
        · injection h with ha hb
          exact Or.inr ⟨ha, hb⟩
        · exact Or.inl (List.mem_cons.mpr (Or.inr h))
      · rw [if_neg h2] at h
        simp only [List.mem_cons] at h
        rcases h with h | h
        · exact Or.inl (List.mem_cons.mpr (Or.inl h))
        · rcases ih h with h3 | h3
          · exact Or.inl (List.mem_cons.mpr (Or.inr h3))
          · exact Or.inr h3

theorem buildDeps_inv (sys : List Str) (fsHash : Str → Option Nat)
    (ledger0 : List (Str × Nat)) :
    ∀ (deps : List Str) (ledger record recf ledgerf : List (Str × Nat)),
    (∀ k, lookupL ledger k ≠ none →
       lookupL ledger0 k ≠ none ∨ is_system_include sys k = false) →
    (∀ k v, (k, v) ∈ record →
       lookupL ledger0 k ≠ none ∨ is_system_include sys k = false) →
    buildDeps sys fsHash ledger record deps = some (recf, ledgerf) →
    ∀ k v, (k, v) ∈ recf →
      lookupL ledger0 k ≠ none ∨ is_system_include sys k = false := by
  intro deps
  induction deps with
  | nil =>
    intro ledger record recf ledgerf _ hrec hbuild k v hm
    simp only [buildDeps, Option.some.injEq, Prod.mk.injEq] at hbuild
    exact hrec k v (hbuild.1 ▸ hm)
  | cons incl rest ih =>
    intro ledger record recf ledgerf hled hrec hbuild k v hm
    simp only [buildDeps] at hbuild
    cases hL : lookupL ledger incl with
    | some digest =>
      rw [hL] at hbuild
      refine ih ledger _ recf ledgerf hled ?_ hbuild k v hm
      intro k' v' hm'
      rcases mem_mapInsert ltStr record incl digest k' v' hm' with h | h
      · exact hrec k' v' h
      · exact h.1 ▸ hled incl (by rw [hL]; exact fun hh => Option.noConfusion hh)
    | none =>
      rw [hL] at hbuild
      by_cases hsys : is_system_include sys incl = true
      · rw [if_pos hsys] at hbuild
        exact ih ledger record recf ledgerf hled hrec hbuild k v hm
      · rw [if_neg hsys] at hbuild
        cases hf : fsHash incl with
        | none => rw [hf] at hbuild; exact Option.noConfusion hbuild
        | some digest =>
          rw [hf] at hbuild
          refine ih (setL ledger incl digest) _ recf ledgerf ?_ ?_ hbuild k v hm
          · intro k' hk'
            rw [lookupL_set] at hk'
            by_cases hkk : k' = incl
            · exact Or.inr (hkk ▸ (Bool.not_eq_true _).mp hsys)
            · rw [if_neg hkk] at hk'
              exact hled k' hk'
          · intro k' v' hm'
            rcases mem_mapInsert ltStr record incl digest k' v' hm' with h | h
            · exact hrec k' v' h
            · exact Or.inr (h.1 ▸ (Bool.not_eq_true _).mp hsys)

/-- C3 (counterexample): when the per-run ledger already holds a digest
for a path (here pre-seeded for c:\sys\a.h), run_for_miss records that
path without consulting the system-include filter, so the produced
dependency record contains a path whose lower-cased form begins with a
lower-cased non-empty entry of INCLUDE. -/
theorem run_for_miss_system_in_record :
    buildDeps (env_include_paths ("c:\\sys".data)) (fun _ => none)
        [("c:\\sys\\a.h".data, 1)] [] ["c:\\sys\\a.h".data]
      = some ([("c:\\sys\\a.h".data, 1)], [("c:\\sys\\a.h".data, 1)])
    ∧ starts_with (lower_case ("c:\\sys\\a.h".data))
        (lower_case ("c:\\sys".data)) = true := by
  decide

/-- C3 (amended): in a dependency record produced by run_for_miss, every
path that was not already present in the per-run ledger is non-system:
it does not begin (by is_system_include's raw starts_with comparison)
with any lower-cased non-empty entry of INCLUDE.  Ledger-known paths
bypass the filter and may be system paths. -/
theorem run_for_miss_no_new_system (inc_env : Str) (fsHash : Str → Option Nat)
    (deps : List Str) (ledger recf ledgerf : List (Str × Nat))
    (hbuild : buildDeps (env_include_paths inc_env) fsHash ledger [] deps
      = some (recf, ledgerf)) :
    ∀ k v, (k, v) ∈ recf → lookupL ledger k = none →
      is_system_include (env_include_paths inc_env) k = false := by
  intro k v hm hnone
  have h := buildDeps_inv (env_include_paths inc_env) fsHash ledger deps ledger []
    recf ledgerf (fun _ h => Or.inl h) (fun _ _ h => absurd h (List.not_mem_nil _))
    hbuild k v hm
  cases h with
  | inl h => exact absurd hnone h
  | inr h => exact h

/-- Witness for run_for_miss_no_new_system at a concrete run. -/
theorem run_for_miss_no_new_system_witness :
    is_system_include (env_include_paths ("c:\\sys".data)) ("d:\\x.h".data) = false :=
  run_for_miss_no_new_system ("c:\\sys".data) (fun _ => some 7) ["d:\\x.h".data]
    [] [("d:\\x.h".data, 7)] [("d:\\x.h".data, 7)] (by decide)
    ("d:\\x.h".data) 7 (by decide) (by decide)

theorem take_append_self {α : Type} (l₁ l₂ : List α) :
    (l₁ ++ l₂).take l₁.length = l₁ := by
  induction l₁ with
  | nil => simp
  | cons hd tl ih => simp [ih]

theorem drop_append_self {α : Type} (l₁ l₂ : List α) :
    (l₁ ++ l₂).drop l₁.length = l₂ := by
  induction l₁ with
  | nil => simp
  | cons hd tl ih => simp [ih]

theorem to_int_from_int (n : Int) (rest : Bytes) (h : intRange n) :
    to_int (from_int n ++ rest) = some (n, rest) := by
  obtain ⟨hlo, hhi⟩ := h
  unfold from_int to_int
  set u := (n % 4294967296).toNat with hu
  have hmod : (0 : Int) ≤ n % 4294967296 := Int.emod_nonneg n (by norm_num)
  have h1 : (u : Int) = n % 4294967296 := by
    rw [hu, Int.toNat_of_nonneg hmod]
  have h2 : (u : Int) < 4294967296 := by
    rw [h1]
    exact Int.emod_lt_of_pos n (by norm_num)
  have h3 : u % 256 + 256 * (u / 256 % 256) + 65536 * (u / 65536 % 256)
      + 16777216 * (u / 16777216 % 256) = u := by
    omega
  simp only [List.cons_append, List.nil_append, h3, Option.some.injEq, Prod.mk.injEq]
  refine ⟨?_, trivial⟩
  split_ifs with hcond <;> omega

theorem to_string_from_string (s : Bytes) (rest : Bytes)
    (h : s.length < 2147483648) :
    to_string (from_string s ++ rest) = some (s, rest) := by
  unfold from_string to_string
  rw [List.append_assoc,
      to_int_from_int (s.length : Int) (s ++ rest) ⟨by omega, by exact_mod_cast h⟩]
  simp [take_append_self, drop_append_self]

theorem to_hash_append (hs : Nat) (x rest : Bytes) (h : x.length = hs) :
    to_hash hs (x ++ rest) = some (x, rest) := by
  unfold to_hash
  subst h
  rw [if_pos (by simp)]
  rw [take_append_self, drop_append_self]

theorem to_vector_go_roundtrip (v : List Bytes) (rest : Bytes)
    (h : ∀ s ∈ v, s.length < 2147483648) :
    to_vector_go v.length ((v.map from_string).flatten ++ rest) = some (v, rest) := by
  induction v with
  | nil => simp [to_vector_go]
  | cons hd tl ih =>
    simp only [List.map_cons, List.flatten_cons, List.length_cons, List.append_assoc]
    unfold to_vector_go
    rw [to_string_from_string hd _ (h hd (List.mem_cons_self _ _))]
    simp only [ih (fun s hs => h s (List.mem_cons_of_mem _ hs))]

theorem to_vector_from_vector (v : List Bytes) (rest : Bytes)
    (hlen : v.length < 2147483648) (h : ∀ s ∈ v, s.length < 2147483648) :
    to_vector (from_vector v ++ rest) = some (v, rest) := by
  unfold from_vector to_vector
  rw [List.append_assoc,
      to_int_from_int (v.length : Int) _ ⟨by omega, by exact_mod_cast hlen⟩]
  simp only [Int.toNat_natCast]
  exact to_vector_go_roundtrip v rest h

theorem ltB_asymm (a b : Bytes) (h : ltB a b = true) : ltB b a = false := by
  induction a generalizing b with
  | nil =>
    cases b with
    | nil => simp [ltB] at h
    | cons c cs => simp [ltB]
  | cons c cs ih =>
    cases b with
    | nil => simp [ltB] at h
    | cons c' cs' =>
      simp only [ltB] at h ⊢
      by_cases h1 : c < c'
      · rw [if_neg (by omega), if_pos h1]
      · rw [if_neg h1] at h
        by_cases h2 : c' < c
        · rw [if_pos h2] at h
          exact absurd h (by simp)
        · rw [if_neg h2] at h
          rw [if_neg h2, if_neg h1]
          exact ih cs' h

theorem ltB_ne (a b : Bytes) (h : ltB a b = true) : a ≠ b := by
  intro he
  subst he
  induction a with
  | nil => simp [ltB] at h
  | cons c cs ih =>
    simp only [ltB] at h
    rw [if_neg (by omega), if_neg (by omega)] at h
    exact ih h

theorem mapInsert_append_of_gt (l : List (Bytes × Bytes)) (k : Bytes) (v : Bytes)
    (h : ∀ p ∈ l, ltB p.1 k = true) :
    mapInsert ltB l k v = l ++ [(k, v)] := by
  induction l with
  | nil => simp [mapInsert]
  | cons hd tl ih =>
    obtain ⟨k', v'⟩ := hd
    have hk' : ltB k' k = true := h (k', v') (List.mem_cons_self _ _)
    simp only [mapInsert]
    rw [if_neg (by rw [ltB_asymm k' k hk']; simp),
        if_neg (fun he => ltB_ne k' k hk' he.symm),
        ih (fun p hp => h p (List.mem_cons_of_mem _ hp))]
    simp

theorem to_dep_map_go_roundtrip (hs : Nat) (l : List (Bytes × Bytes)) :
    ∀ (rest : Bytes) (acc : List (Bytes × Bytes)),
    (∀ p ∈ l, p.1.length < 2147483648 ∧ p.2.length = hs) →
    (∀ p ∈ acc, ∀ q ∈ l, ltB p.1 q.1 = true) →
    l.Pairwise (fun a b => ltB a.1 b.1 = true) →
    to_dep_map_go hs l.length
        ((l.map (fun kv => from_string kv.1 ++ kv.2)).flatten ++ rest) acc
      = some (acc ++ l, rest) := by
  induction l with
  | nil =>
    intro rest acc _ _ _
    simp [to_dep_map_go]
  | cons hd tl ih =>
    intro rest acc hlen hsort hpair
    obtain ⟨k, v⟩ := hd
    obtain ⟨hhead, htail⟩ := List.pairwise_cons.mp hpair
    simp only [List.map_cons, List.flatten_cons, List.length_cons, List.append_assoc]
    unfold to_dep_map_go
    rw [to_string_from_string k _ (hlen (k, v) (List.mem_cons_self _ _)).1]
    simp only [to_hash_append hs v _ (hlen (k, v) (List.mem_cons_self _ _)).2]
    rw [mapInsert_append_of_gt acc k v
        (fun p hp => hsort p hp (k, v) (List.mem_cons_self _ _))]
    have hsort' : ∀ p ∈ acc ++ [(k, v)], ∀ q ∈ tl, ltB p.1 q.1 = true := by
      intro p hp q hq
      rcases List.mem_append.mp hp with hp | hp
      · exact hsort p hp q (List.mem_cons_of_mem _ hq)
      · have hpk : p = (k, v) := by simpa using hp
        subst hpk
        exact hhead q hq
    simp only [ih rest (acc ++ [(k, v)])
        (fun p hp => hlen p (List.mem_cons_of_mem _ hp)) hsort' htail]
    simp

theorem to_dep_map_from_dep_map (hs : Nat) (l : List (Bytes × Bytes)) (rest : Bytes)
    (hlen : l.length < 2147483648)
    (h : ∀ p ∈ l, p.1.length < 2147483648 ∧ p.2.length = hs)
    (hpair : l.Pairwise (fun a b => ltB a.1 b.1 = true)) :
    to_dep_map hs (from_dep_map l ++ rest) = some (l, rest) := by
  unfold from_dep_map to_dep_map
  rw [List.append_assoc,
      to_int_from_int (l.length : Int) _ ⟨by omega, by exact_mod_cast hlen⟩]
  simp only [Int.toNat_natCast]
  have := to_dep_map_go_roundtrip hs l rest [] h
    (fun p hp => absurd hp (List.not_mem_nil _)) hpair
  simpa using this

theorem to_v2_map_go_roundtrip (l : List (Bytes × Bytes)) :
    ∀ (rest : Bytes) (acc : List (Bytes × Bytes)),
    (∀ p ∈ l, p.1.length < 2147483648 ∧ p.2.length < 2147483648) →
    (∀ p ∈ acc, ∀ q ∈ l, ltB p.1 q.1 = true) →
    l.Pairwise (fun a b => ltB a.1 b.1 = true) →
    to_v2_map_go l.length
        ((l.map (fun kv => from_string kv.1 ++ from_string kv.2)).flatten ++ rest) acc
      = some (acc ++ l, rest) := by
  induction l with
  | nil =>
    intro rest acc _ _ _
    simp [to_v2_map_go]
  | cons hd tl ih =>
    intro rest acc hlen hsort hpair
    obtain ⟨k, v⟩ := hd
    obtain ⟨hhead, htail⟩ := List.pairwise_cons.mp hpair
    simp only [List.map_cons, List.flatten_cons, List.length_cons, List.append_assoc]
    unfold to_v2_map_go
    rw [to_string_from_string k _ (hlen (k, v) (List.mem_cons_self _ _)).1]
    simp only [to_string_from_string v _ (hlen (k, v) (List.mem_cons_self _ _)).2]
    rw [mapInsert_append_of_gt acc k v
        (fun p hp => hsort p hp (k, v) (List.mem_cons_self _ _))]
    have hsort' : ∀ p ∈ acc ++ [(k, v)], ∀ q ∈ tl, ltB p.1 q.1 = true := by
      intro p hp q hq
      rcases List.mem_append.mp hp with hp | hp
      · exact hsort p hp q (List.mem_cons_of_mem _ hq)
      · have hpk : p = (k, v) := by simpa using hp
        subst hpk
        exact hhead q hq
    simp only [ih rest (acc ++ [(k, v)])
        (fun p hp => hlen p (List.mem_cons_of_mem _ hp)) hsort' htail]
    simp

/-- C4: for every cache entry (any compression mode, file-id list,
stdout/stderr, return code and dependency record, under the intrinsic
std::map/int32 representation invariants of a valid entry), deserializing
the serialized bytes yields the entry field by field, provided decompress
is a left inverse of compress (and the compressed outputs fit the 32-bit
length prefix). -/
theorem serialize_roundtrip (hs : Nat) (compress decompress : Bytes → Bytes)
    (E : cache_entry_t)
    (hinv : ∀ s, decompress (compress s) = s)
    (hwf : cache_entry_wf hs E)
    (hcout : (compress E.m_std_out).length < 2147483648)
    (hcerr : (compress E.m_std_err).length < 2147483648) :
    cache_entry_t.deserialize hs decompress (cache_entry_t.serialize compress E)
      = some E := by
  obtain ⟨fids, deps, cm, so, se, rc, valid⟩ := E
  obtain ⟨hvalid, hrc, hflen, hfids, hdlen, hdrec, hpair, hout, herr⟩ := hwf
  simp only at hvalid hrc hflen hfids hdlen hdrec hpair hout herr hcout hcerr
  subst hvalid
  unfold cache_entry_t.serialize cache_entry_t.deserialize
  have h3 : ∀ r, to_vector (from_vector fids ++ r) = some (fids, r) :=
    fun r => to_vector_from_vector fids r hflen hfids
  have h6 : ∀ r, to_int (from_int rc ++ r) = some (rc, r) :=
    fun r => to_int_from_int rc r hrc
  have h7 : to_dep_map hs (from_dep_map deps) = some (deps, []) := by
    have := to_dep_map_from_dep_map hs deps [] hdlen hdrec hpair
    simpa using this
  cases cm with
  | NONE =>
    have h1 : ∀ r, to_int (from_int 4 ++ r) = some (4, r) :=
      fun r => to_int_from_int 4 r (by constructor <;> norm_num)
    have h2 : ∀ r, to_int (from_int 0 ++ r) = some (0, r) :=
      fun r => to_int_from_int 0 r (by constructor <;> norm_num)
    have h4 : ∀ r, to_string (from_string so ++ r) = some (so, r) :=
      fun r => to_string_from_string so r hout
    have h5 : ∀ r, to_string (from_string se ++ r) = some (se, r) :=
      fun r => to_string_from_string se r herr
    simp [comp_mode_t.toInt, comp_mode_of_int, List.append_assoc,
      h1, h2, h3, h4, h5, h6, h7]
  | ALL =>
    have h1 : ∀ r, to_int (from_int 4 ++ r) = some (4, r) :=
      fun r => to_int_from_int 4 r (by constructor <;> norm_num)
    have h2 : ∀ r, to_int (from_int 1 ++ r) = some (1, r) :=
      fun r => to_int_from_int 1 r (by constructor <;> norm_num)
    have h4 : ∀ r, to_string (from_string (compress so) ++ r) = some (compress so, r) :=
      fun r => to_string_from_string (compress so) r hcout
    have h5 : ∀ r, to_string (from_string (compress se) ++ r) = some (compress se, r) :=
      fun r => to_string_from_string (compress se) r hcerr
    simp [comp_mode_t.toInt, comp_mode_of_int, List.append_assoc,
      h1, h2, h3, h4, h5, h6, h7, hinv]

/-- Witness for serialize_roundtrip: a concrete compressed entry with the
identity compressor. -/
theorem serialize_roundtrip_witness :
    cache_entry_t.deserialize 2 id
        (cache_entry_t.serialize id ⟨[[1]], [([5], [9, 9])], comp_mode_t.ALL, [3], [], 0, true⟩)
      = some ⟨[[1]], [([5], [9, 9])], comp_mode_t.ALL, [3], [], 0, true⟩ :=
  serialize_roundtrip 2 id id ⟨[[1]], [([5], [9, 9])], comp_mode_t.ALL, [3], [], 0, true⟩
    (fun _ => rfl)
    ⟨rfl, by constructor <;> norm_num, by norm_num, by simp, by norm_num,
     by simp, by simp, by norm_num, by norm_num⟩
    (by norm_num) (by norm_num)

theorem to_v2_map_from_v2_map (l : List (Bytes × Bytes)) (rest : Bytes)
    (hlen : l.length < 2147483648)
    (h : ∀ p ∈ l, p.1.length < 2147483648 ∧ p.2.length < 2147483648)
    (hpair : l.Pairwise (fun a b => ltB a.1 b.1 = true)) :
    to_v2_map (from_v2_map l ++ rest) = some (l, rest) := by
  unfold from_v2_map to_v2_map
  rw [List.append_assoc,
      to_int_from_int (l.length : Int) _ ⟨by omega, by exact_mod_cast hlen⟩]
  simp only [Int.toNat_natCast]
  have := to_v2_map_go_roundtrip l rest [] h
    (fun p hp => absurd hp (List.not_mem_nil _)) hpair
  simpa using this

/-- C8 (counterexample): a well-formed version-1 blob — a version the
claim says must be refused — deserializes successfully (versions below 2
take the compression-less, string-map branches but are not rejected). -/
theorem deserialize_v1_accepted :
    cache_entry_t.deserialize 2 id
        (from_int 1 ++ from_int 0 ++ from_int 0 ++ from_int 0 ++ from_int 0)
      = some ⟨[], [], comp_mode_t.NONE, [], [], 0, true⟩ := by
  decide

/-- C8 (amended): deserialize refuses exactly the versions strictly
greater than the writer's 4; every version ≤ 4 — including 1, 0 and
negative values — is accepted when the remaining fields are well-formed
(below 2 the compression mode defaults to NONE and the file list is read
as a v2 string map). -/
theorem deserialize_version_gate (hs : Nat) (dec : Bytes → Bytes) :
    (∀ (v : Int) (rest : Bytes), 4 < v → v < 2147483648 →
      cache_entry_t.deserialize hs dec (from_int v ++ rest) = none)
    ∧ (∀ v : Int, -2147483648 ≤ v → v ≤ 4 →
      (cache_entry_t.deserialize hs dec (minBlob v)).isSome = true) := by
  constructor
  · intro v rest hgt hhi
    unfold cache_entry_t.deserialize
    rw [to_int_from_int v rest ⟨by omega, hhi⟩]
    simp [hgt]
  · intro v hlo hle
    unfold minBlob cache_entry_t.deserialize
    have h1 : ∀ r, to_int (from_int v ++ r) = some (v, r) :=
      fun r => to_int_from_int v r ⟨hlo, by omega⟩
    have h0 : ∀ r, to_int (from_int 0 ++ r) = some (0, r) :=
      fun r => to_int_from_int 0 r (by constructor <;> norm_num)
    have h0' : to_int (from_int 0) = some (0, []) := by
      have := h0 []
      simpa using this
    have hvec : ∀ r, to_vector (from_int 0 ++ r) = some ([], r) := by
      intro r
      have := to_vector_from_vector [] r (by norm_num) (by simp)
      simpa [from_vector] using this
    have hv2 : ∀ r, to_v2_map (from_int 0 ++ r) = some ([], r) := by
      intro r
      have := to_v2_map_from_v2_map [] r (by norm_num) (by simp) (by simp)
      simpa [from_v2_map] using this
    have hstr : ∀ r, to_string (from_int 0 ++ r) = some ([], r) := by
      intro r
      have := to_string_from_string [] r (by norm_num)
      simpa [from_string] using this
    have hdep : to_dep_map hs (from_int 0) = some ([], []) := by
      have := to_dep_map_from_dep_map hs [] [] (by norm_num) (by simp) (by simp)
      simpa [from_dep_map] using this
    have hnlt : ¬ (4 < v) := by omega
    by_cases h2 : (2 : Int) ≤ v <;> by_cases h3 : (3 : Int) ≤ v <;>
      by_cases h4 : (4 : Int) ≤ v
    all_goals first
      | omega
      | simp [List.append_assoc, h1, h0, h0', hvec, hv2, hstr, hdep,
          comp_mode_of_int, v2_files_to_vector, hnlt, h2, h3, h4]

/-- Witness for deserialize_version_gate: version 5 is refused, the
minimal version-1 blob is accepted. -/
theorem deserialize_version_gate_witness :
    cache_entry_t.deserialize 2 id (from_int 5 ++ []) = none
    ∧ (cache_entry_t.deserialize 2 id (minBlob 1)).isSome = true :=
  ⟨(deserialize_version_gate 2 id).1 5 [] (by norm_num) (by norm_num),
   (deserialize_version_gate 2 id).2 1 (by norm_num) (by norm_num)⟩

/-- C9 (counterexample): a version-2 blob whose string map is serialized
in the stream order ("b", then "a") decodes to the file-id vector
["a", "b"] — the std::map sorted key order — not to the stream
(insertion) order ["b", "a"] the claim states. -/
theorem v2_file_ids_stream_order_ne :
    ((cache_entry_t.deserialize 2 id
        (from_int 2 ++ from_int 0
         ++ (from_int 2 ++ from_string [98] ++ from_string [120]
             ++ from_string [97] ++ from_string [121])
         ++ from_string [] ++ from_string [] ++ from_int 0)).map
      (fun e => e.m_file_ids) = some [[97], [98]])
    ∧ ¬ ((cache_entry_t.deserialize 2 id
        (from_int 2 ++ from_int 0
         ++ (from_int 2 ++ from_string [98] ++ from_string [120]
             ++ from_string [97] ++ from_string [121])
         ++ from_string [] ++ from_string [] ++ from_int 0)).map
      (fun e => e.m_file_ids) = some [[98], [97]]) := by
  decide

/-- C9 (amended): deserializing a version-2 blob yields the keys of the
serialized string map in the std::map ascending key order; this
coincides with the order the pairs appear in the serialized stream
exactly when that stream is sorted strictly ascending (as produced by the
v2 writer, which iterated a std::map). -/
theorem v2_file_ids_sorted_keys (hs : Nat) (dec : Bytes → Bytes)
    (ps : List (Bytes × Bytes)) (out err : Bytes) (rc : Int)
    (hplen : ps.length < 2147483648)
    (hp : ∀ p ∈ ps, p.1.length < 2147483648 ∧ p.2.length < 2147483648)
    (hpair : ps.Pairwise (fun a b => ltB a.1 b.1 = true))
    (hout : out.length < 2147483648) (herr : err.length < 2147483648)
    (hrc : intRange rc) :
    cache_entry_t.deserialize hs dec
        (from_int 2 ++ from_int 0 ++ from_v2_map ps
         ++ from_string out ++ from_string err ++ from_int rc)
      = some ⟨v2_files_to_vector ps, [], comp_mode_t.NONE, out, err, rc, true⟩ := by
  unfold cache_entry_t.deserialize
  have h1 : ∀ r, to_int (from_int 2 ++ r) = some (2, r) :=
    fun r => to_int_from_int 2 r (by constructor <;> norm_num)
  have h0 : ∀ r, to_int (from_int 0 ++ r) = some (0, r) :=
    fun r => to_int_from_int 0 r (by constructor <;> norm_num)
  have hm : ∀ r, to_v2_map (from_v2_map ps ++ r) = some (ps, r) :=
    fun r => to_v2_map_from_v2_map ps r hplen hp hpair
  have h4 : ∀ r, to_string (from_string out ++ r) = some (out, r) :=
    fun r => to_string_from_string out r hout
  have h5 : ∀ r, to_string (from_string err ++ r) = some (err, r) :=
    fun r => to_string_from_string err r herr
  have h6 : to_int (from_int rc) = some (rc, []) := by
    have := to_int_from_int rc [] hrc
    simpa using this
  simp [List.append_assoc, h1, h0, hm, h4, h5, h6, comp_mode_of_int]

/-- Witness for v2_file_ids_sorted_keys on a one-pair map. -/
theorem v2_file_ids_sorted_keys_witness :
    cache_entry_t.deserialize 2 id
        (from_int 2 ++ from_int 0 ++ from_v2_map [([97], [120])]
         ++ from_string [] ++ from_string [] ++ from_int 0)
      = some ⟨[[97]], [], comp_mode_t.NONE, [], [], 0, true⟩ :=
  v2_file_ids_sorted_keys 2 id [([97], [120])] [] [] 0 (by norm_num)
    (by simp) (by simp) (by norm_num) (by norm_num) (by constructor <;> norm_num)

/-! ### List-boundary behavior of step, and the append lemma (claims C5, C7) -/
theorem retrieveArg_none (a : Str) (c : Bool) (v : Str) (u : Bool)
    (h : retrieveArg a c none = .ok (v, u)) :
    u = false ∧ ∀ y, retrieveArg a c (some y) = .ok (v, false) := by
  unfold retrieveArg at h ⊢
  by_cases he : (if c then drop_leading_colon a else a) = []
  · rw [if_pos he] at h
    cases c with
    | false => simp at h
    | true => simp at h
  · rw [if_neg he] at h
    simp only [Except.ok.injEq, Prod.mk.injEq] at h
    obtain ⟨hv, hu⟩ := h
    refine ⟨hu.symm, fun y => ?_⟩
    rw [if_neg he, hv]

theorem retrieve_update_extend (upd : Str → cmdline_parser_t) (a : Str)
    (c : Bool) (y : Str) :
    (retrieve_update upd a c (some y) = retrieve_update upd a c none
     ∧ ∀ st', retrieve_update upd a c none ≠ .update st' true)
    ∨ ∃ e, retrieve_update upd a c none = .fail e := by
  cases hr : retrieveArg a c none with
  | error e =>
    right
    exact ⟨e, by simp [retrieve_update, hr]⟩
  | ok p =>
    obtain ⟨v, u⟩ := p
    obtain ⟨hu, hy⟩ := retrieveArg_none a c v u hr
    subst hu
    left
    constructor
    · simp [retrieve_update, hr, hy y]
    · simp [retrieve_update, hr]

/-- step_extend for an item whose branch does not depend on the next
item. -/
theorem step_extend_of_const (st : cmdline_parser_t) (item y : Str) (r : step_result)
    (hne : ∀ st', r ≠ step_result.update st' true)
    (hs : ∀ next, step st item next = r) :
    (step st item (some y) = step st item none
     ∧ ∀ st', step st item none ≠ .update st' true)
    ∨ ∃ e, step st item none = .fail e :=
  Or.inl ⟨(hs (some y)).trans (hs none).symm,
    fun st' hh => hne st' ((hs none).symm.trans hh)⟩

/-- step_extend for an item whose branch is a retrieve_update. -/
theorem step_extend_of_retrieve (st : cmdline_parser_t) (item y : Str)
    (upd : Str → cmdline_parser_t) (a : Str) (c : Bool)
    (hs : ∀ next, step st item next = retrieve_update upd a c next) :
    (step st item (some y) = step st item none
     ∧ ∀ st', step st item none ≠ .update st' true)
    ∨ ∃ e, step st item none = .fail e := by
  rcases retrieve_update_extend upd a c y with ⟨heq, hnc⟩ | ⟨e, hfail⟩
  · exact Or.inl ⟨(hs (some y)).trans (heq.trans (hs none).symm),
      fun st' hh => hnc st' ((hs none).symm.trans hh)⟩
  · exact Or.inr ⟨e, (hs none).trans hfail⟩

/-- Processing an item with no successor behaves like processing it with
one, except that a dangling-argument error may turn into a consuming
update; in particular a successful step at the end of a list never
claims to consume a successor. -/
theorem step_extend (st : cmdline_parser_t) (item y : Str) :
    (step st item (some y) = step st item none
     ∧ ∀ st', step st item none ≠ .update st' true)
    ∨ ∃ e, step st item none = .fail e := by
  cases hgo : get_option item with
  | none =>
    by_cases hat : starts_with item ("@".data) = true
    · exact step_extend_of_const st item y (step_result.respfile (item.drop 1))
        (fun st' hh => step_result.noConfusion hh)
        (fun next => by simp only [step, hgo, if_pos hat])
    · exact step_extend_of_const st item y
        (.update { st with m_input_files := st.m_input_files ++ [⟨item, InputType.kUnknown⟩] } false)
        (fun st' hh => Bool.noConfusion (step_result.update.inj hh).2)
        (fun next => by simp only [step, hgo, if_neg hat])
  | some o =>
    by_cases h1 : o = "link".data
    · exact step_extend_of_const st item y step_result.stop
        (fun st' hh => step_result.noConfusion hh)
        (fun next => by simp only [step, hgo, if_pos h1])
    by_cases h2 : o = "c".data
    · exact step_extend_of_const st item y
        (.update { st with m_compile_only := true } false)
        (fun st' hh => Bool.noConfusion (step_result.update.inj hh).2)
        (fun next => by simp only [step, hgo, if_neg h1, if_pos h2])
    by_cases h3 : starts_with o ("D".data) = true
    · exact step_extend_of_retrieve st item y
        (fun v => { st with m_defines := st.m_defines ++ [v] }) (o.drop 1) false
        (fun next => by simp only [step, hgo, if_neg h1, if_neg h2, if_pos h3])
    by_cases h4 : starts_with o ("Fd".data) = true
    · exact step_extend_of_retrieve st item y
        (fun v => { st with m_pdb_path := sanitize_path v }) (o.drop 2) true
        (fun next => by
          simp only [step, hgo, if_neg h1, if_neg h2, if_neg h3, if_pos h4])
    by_cases h5 : starts_with o ("Fo".data) = true
    · exact step_extend_of_retrieve st item y
        (fun v => { st with m_object_path := sanitize_path v }) (o.drop 2) true
        (fun next => by
          simp only [step, hgo, if_neg h1, if_neg h2, if_neg h3, if_neg h4, if_pos h5])
    by_cases h6 : starts_with o ("Fp".data) = true
    · exact step_extend_of_retrieve st item y
        (fun v => { st with m_pch_config := { st.m_pch_config with path := sanitize_path v } })
        (o.drop 2) true
        (fun next => by
          simp only [step, hgo, if_neg h1, if_neg h2, if_neg h3, if_neg h4, if_neg h5,
            if_pos h6])
    by_cases h7 : starts_with o ("I".data) = true
    · exact step_extend_of_retrieve st item y
        (fun v => { st with m_includes := st.m_includes ++ [sanitize_path v] }) (o.drop 1) false
        (fun next => by
          simp only [step, hgo, if_neg h1, if_neg h2, if_neg h3, if_neg h4, if_neg h5,
            if_neg h6, if_pos h7])
    by_cases h8 : o = "TC".data
    · exact step_extend_of_const st item y
        (.update { st with m_default_input_type := InputType.kC } false)
        (fun st' hh => Bool.noConfusion (step_result.update.inj hh).2)
        (fun next => by
          simp only [step, hgo, if_neg h1, if_neg h2, if_neg h3, if_neg h4, if_neg h5,
            if_neg h6, if_neg h7, if_pos h8])
    by_cases h9 : o = "TP".data
    · exact step_extend_of_const st item y
        (.update { st with m_default_input_type := InputType.kCpp } false)
        (fun st' hh => Bool.noConfusion (step_result.update.inj hh).2)
        (fun next => by
          simp only [step, hgo, if_neg h1, if_neg h2, if_neg h3, if_neg h4, if_neg h5,
            if_neg h6, if_neg h7, if_neg h8, if_pos h9])
    by_cases h10 : (starts_with o ("Tc".data) || starts_with o ("Tp".data)) = true
    · exact step_extend_of_retrieve st item y
        (fun v => { st with m_input_files := st.m_input_files
          ++ [⟨sanitize_path v,
               if starts_with o ("Tc".data) then InputType.kC else InputType.kCpp⟩] })
        (o.drop 2) false
        (fun next => by
          simp only [step, hgo, if_neg h1, if_neg h2, if_neg h3, if_neg h4, if_neg h5,
            if_neg h6, if_neg h7, if_neg h8, if_neg h9, if_pos h10])
    by_cases h11 : o = "Y-".data
    · exact step_extend_of_const st item y
        (.update { st with m_pch_config := { st.m_pch_config with ignore := true } } false)
        (fun st' hh => Bool.noConfusion (step_result.update.inj hh).2)
        (fun next => by
          simp only [step, hgo, if_neg h1, if_neg h2, if_neg h3, if_neg h4, if_neg h5,
            if_neg h6, if_neg h7, if_neg h8, if_neg h9, if_neg h10, if_pos h11])
    by_cases h12 : starts_with o ("Yc".data) = true
    · exact step_extend_of_const st item y
        (.update { st with m_pch_config :=
          { st.m_pch_config with create := ⟨true, sanitize_path (o.drop 2)⟩ } } false)
        (fun st' hh => Bool.noConfusion (step_result.update.inj hh).2)
        (fun next => by
          simp only [step, hgo, if_neg h1, if_neg h2, if_neg h3, if_neg h4, if_neg h5,
            if_neg h6, if_neg h7, if_neg h8, if_neg h9, if_neg h10, if_neg h11, if_pos h12])
    by_cases h13 : starts_with o ("Yu".data) = true
    · exact step_extend_of_const st item y
        (.update { st with m_pch_config :=
          { st.m_pch_config with use := ⟨true, sanitize_path (o.drop 2)⟩ } } false)
        (fun st' hh => Bool.noConfusion (step_result.update.inj hh).2)
        (fun next => by
          simp only [step, hgo, if_neg h1, if_neg h2, if_neg h3, if_neg h4, if_neg h5,
            if_neg h6, if_neg h7, if_neg h8, if_neg h9, if_neg h10, if_neg h11, if_neg h12,
            if_pos h13])
    by_cases h14 : o = "Z7".data
    · exact step_extend_of_const st item y
        (.update { st with m_debug_format := DebugFormat.kObjectFile } false)
        (fun st' hh => Bool.noConfusion (step_result.update.inj hh).2)
        (fun next => by
          simp only [step, hgo, if_neg h1, if_neg h2, if_neg h3, if_neg h4, if_neg h5,
            if_neg h6, if_neg h7, if_neg h8, if_neg h9, if_neg h10, if_neg h11, if_neg h12,
            if_neg h13, if_pos h14])
    by_cases h15 : o = "Zi".data
    · exact step_extend_of_const st item y
        (.update { st with m_debug_format := DebugFormat.kSeparateFile } false)
        (fun st' hh => Bool.noConfusion (step_result.update.inj hh).2)
        (fun next => by
          simp only [step, hgo, if_neg h1, if_neg h2, if_neg h3, if_neg h4, if_neg h5,
            if_neg h6, if_neg h7, if_neg h8, if_neg h9, if_neg h10, if_neg h11, if_neg h12,
            if_neg h13, if_neg h14, if_pos h15])
    by_cases h16 : o = "ZI".data
    · exact step_extend_of_const st item y
        (.update { st with m_debug_format := DebugFormat.kSeparateFileEditAndContinue } false)
        (fun st' hh => Bool.noConfusion (step_result.update.inj hh).2)
        (fun next => by
          simp only [step, hgo, if_neg h1, if_neg h2, if_neg h3, if_neg h4, if_neg h5,
            if_neg h6, if_neg h7, if_neg h8, if_neg h9, if_neg h10, if_neg h11, if_neg h12,
            if_neg h13, if_neg h14, if_neg h15, if_pos h16])
    exact step_extend_of_const st item y
      (.update { st with m_options := st.m_options ++ [o] } false)
      (fun st' hh => Bool.noConfusion (step_result.update.inj hh).2)
      (fun next => by
        simp only [step, hgo, if_neg h1, if_neg h2, if_neg h3, if_neg h4, if_neg h5,
          if_neg h6, if_neg h7, if_neg h8, if_neg h9, if_neg h10, if_neg h11, if_neg h12,
          if_neg h13, if_neg h14, if_neg h15, if_neg h16])

/-- parse_list over a concatenation: if the first part parses without
error, the concatenation continues from its final state; a /link break in
the first part stops everything. -/
theorem parseListH_append (h : cmdline_parser_t → Str → Except Str cmdline_parser_t)
    (ys : List Str) :
    ∀ (n : Nat) (xs : List Str), xs.length ≤ n →
    ∀ (st s : cmdline_parser_t) (b : Bool),
    parseListH h st xs = .ok (s, b) →
    parseListH h st (xs ++ ys) = if b then .ok (s, true) else parseListH h s ys := by
  intro n
  induction n with
  | zero =>
    intro xs hlen st s b hp
    have hxs : xs = [] := List.eq_nil_of_length_eq_zero (Nat.le_zero.mp hlen)
    subst hxs
    simp only [parseListH, Except.ok.injEq, Prod.mk.injEq] at hp
    obtain ⟨hs, hb⟩ := hp
    subst hs
    subst hb
    simp
  | succ n ih =>
    intro xs hlen st s b hp
    cases xs with
    | nil =>
      simp only [parseListH, Except.ok.injEq, Prod.mk.injEq] at hp
      obtain ⟨hs, hb⟩ := hp
      subst hs
      subst hb
      simp
    | cons item rest =>
      cases rest with
      | nil =>
        cases ys with
        | nil =>
          rw [List.append_nil, hp]
          cases b with
          | true => simp
          | false => simp [parseListH]
        | cons y ys' =>
          rcases step_extend st item y with ⟨heq, hnc⟩ | ⟨e, hfail⟩
          · simp only [List.cons_append, List.nil_append]
            cases hstep : step st item none with
            | stop =>
              simp only [parseListH, hstep, Except.ok.injEq, Prod.mk.injEq] at hp
              obtain ⟨hs, hb⟩ := hp
              subst hs
              subst hb
              simp [parseListH, heq, hstep]
            | fail e' =>
              simp [parseListH, hstep] at hp
            | update st' used =>
              cases used with
              | true => exact absurd hstep (hnc st')
              | false =>
                simp only [parseListH, hstep, Except.ok.injEq, Prod.mk.injEq] at hp
                obtain ⟨hs, hb⟩ := hp
                subst hs
                subst hb
                simp [parseListH, heq, hstep]
            | respfile nm =>
              simp only [parseListH, hstep] at hp
              cases hh : h st nm with
              | error e' => rw [hh] at hp; simp at hp
              | ok st' =>
                rw [hh] at hp
                simp only [Except.ok.injEq, Prod.mk.injEq] at hp
                obtain ⟨hs, hb⟩ := hp
                subst hs
                subst hb
                simp [parseListH, heq, hstep, hh]
          · simp [parseListH, hfail] at hp
      | cons next rest2 =>
        simp only [List.cons_append]
        cases hstep : step st item (some next) with
        | stop =>
          simp only [parseListH, hstep, Except.ok.injEq, Prod.mk.injEq] at hp
          obtain ⟨hs, hb⟩ := hp
          subst hs
          subst hb
          simp [parseListH, hstep]
        | fail e =>
          simp [parseListH, hstep] at hp
        | update st' used =>
          cases used with
          | true =>
            simp only [parseListH, hstep] at hp ⊢
            refine ih rest2 ?_ st' s b hp
            simp only [List.length_cons] at hlen
            omega
          | false =>
            simp only [parseListH, hstep] at hp ⊢
            have hlen2 : (next :: rest2).length ≤ n := by
              simp only [List.length_cons] at hlen ⊢
              omega
            have := ih (next :: rest2) hlen2 st' s b hp
            simpa using this
        | respfile nm =>
          simp only [parseListH, hstep] at hp ⊢
          cases hh : h st nm with
          | error e => rw [hh] at hp; simp at hp
          | ok st' =>
            rw [hh] at hp
            have hlen2 : (next :: rest2).length ≤ n := by
              simp only [List.length_cons] at hlen ⊢
              omega
            exact ih (next :: rest2) hlen2 st' s b hp

/-- parseListH_append without the explicit length bound. -/
theorem parseListH_append' (h : cmdline_parser_t → Str → Except Str cmdline_parser_t)
    (ys xs : List Str) (st s : cmdline_parser_t) (b : Bool)
    (hp : parseListH h st xs = .ok (s, b)) :
    parseListH h st (xs ++ ys) = if b then .ok (s, true) else parseListH h s ys :=
  parseListH_append h ys xs.length xs le_rfl st s b hp

/-! ### Claim C5 -/
/-- C5 (counterexample): with CL=/link, a /link token from the CL
environment variable stops only the CL line, while in the claimed
concatenated token list it stops everything that follows; parsing
`cl /c` with CL=/link sets compile_only, parsing the concatenation
does not. -/
theorem cl_wrapping_link_ne :
    ¬ (parse noFs (some ("/link".data)) (some ("".data)) ["cl".data, "/c".data]
       = parse noFs none none
           ("cl".data
            :: (split_args ("/link".data) ++ ["/c".data] ++ split_args ("".data)))) := by
  decide

/-- C5 (amended): parsing argv with CL=a and _CL_=b equals parsing, with
both variables unset, tokenize(a) ++ argv[1..] ++ tokenize(b), provided
each piece parses without error and neither the CL piece nor argv
reaches a /link break (a /link token stops only the token list it occurs
in, and an option that would take its argument from the next token must
find it inside its own piece). -/
theorem cl_wrapping (fs : Str → Option (List Str)) (a b : Str) (argv : List Str)
    (s1 s2 s3 : cmdline_parser_t) (bb : Bool)
    (h1 : parse_list fs initState (split_args a) = .ok (s1, false))
    (h2 : parse_list fs s1 (argv.drop 1) = .ok (s2, false))
    (h3 : parse_list fs s2 (split_args b) = .ok (s3, bb)) :
    parse fs (some a) (some b) argv = .ok s3
    ∧ parse fs none none
        ("cl".data :: (split_args a ++ argv.drop 1 ++ split_args b)) = .ok s3 := by
  rw [List.drop_one] at h2
  have e1 := parseListH_append' (parseFileB fs 100) (argv.tail ++ split_args b)
    (split_args a) initState s1 false h1
  simp only [Bool.false_eq_true, if_false] at e1
  have e2 := parseListH_append' (parseFileB fs 100) (split_args b) argv.tail
    s1 s2 false h2
  simp only [Bool.false_eq_true, if_false] at e2
  have hmain : parseListH (parseFileB fs 100) initState
      (split_args a ++ (argv.tail ++ split_args b)) = .ok (s3, bb) := by
    rw [e1, e2]
    exact h3
  constructor
  · unfold parse parse_line
    by_cases hl : argv.length > 1
    · simp [h1, h2, h3, hl, Except.map]
    · have htail : argv.tail = [] := by
        cases argv with
        | nil => rfl
        | cons x xs =>
          cases xs with
          | nil => rfl
          | cons z zs =>
            exact absurd (by simp only [List.length_cons]; omega) hl
      rw [htail] at h2
      have h12 : s1 = s2 := by
        have h2' := h2
        simp only [parse_list, parseListH, Except.ok.injEq, Prod.mk.injEq] at h2'
        exact h2'.1
      subst h12
      simp [h1, h3, hl, Except.map]
  · cases hL : (split_args a ++ argv.tail ++ split_args b) with
    | nil =>
      have hsa : split_args a = [] := by
        rcases List.append_eq_nil.mp (List.append_eq_nil.mp hL).1 with ⟨hx, _⟩
        exact hx
      have htl : argv.tail = [] := by
        rcases List.append_eq_nil.mp (List.append_eq_nil.mp hL).1 with ⟨_, hx⟩
        exact hx
      have hsb : split_args b = [] := (List.append_eq_nil.mp hL).2
      rw [hsa] at h1
      rw [htl] at h2
      rw [hsb] at h3
      simp only [parse_list, parseListH, Except.ok.injEq, Prod.mk.injEq] at h1 h2 h3
      unfold parse
      simp [hsa, htl, hsb, ← h1.1, ← h2.1, ← h3.1]
    | cons x xs =>
      unfold parse parse_line
      have ht : argv.tail.length = argv.length - 1 := by
        cases argv <;> simp
      have hlc := congrArg List.length hL
      simp only [List.length_append, List.length_cons] at hlc
      have hor : 0 < (split_args a).length ∨ 1 < argv.length ∨ 0 < (split_args b).length := by
        omega
      simp [parse_list, hmain, Except.map, hor]

/-- Witness for cl_wrapping: CL=/W4, argv `cl /c foo.c`, _CL_=/DX=1. -/
theorem cl_wrapping_witness :
    parse noFs (some ("/W4".data)) (some ("/DX=1".data))
        ["cl".data, "/c".data, "foo.c".data]
      = .ok { initState with
              m_compile_only := true,
              m_options := ["W4".data],
              m_defines := ["X=1".data],
              m_input_files := [⟨"foo.c".data, InputType.kUnknown⟩] }
    ∧ parse noFs none none
        ("cl".data :: (split_args ("/W4".data) ++ ["/c".data, "foo.c".data]
          ++ split_args ("/DX=1".data)))
      = .ok { initState with
              m_compile_only := true,
              m_options := ["W4".data],
              m_defines := ["X=1".data],
              m_input_files := [⟨"foo.c".data, InputType.kUnknown⟩] } :=
  cl_wrapping noFs ("/W4".data) ("/DX=1".data) ["cl".data, "/c".data, "foo.c".data]
    ({ initState with m_options := ["W4".data] })
    ({ initState with
       m_compile_only := true
       m_options := ["W4".data]
       m_input_files := [⟨"foo.c".data, InputType.kUnknown⟩] })
    ({ initState with
       m_compile_only := true
       m_options := ["W4".data]
       m_defines := ["X=1".data]
       m_input_files := [⟨"foo.c".data, InputType.kUnknown⟩] })
    false (by decide) (by decide) (by decide)

/-- Processing the `/c` token. -/
theorem step_slash_c (st : cmdline_parser_t) (n : Option Str) :
    step st ("/c".data) n = .update { st with m_compile_only := true } false := rfl

/-- Processing the `/TC` token. -/
theorem step_TC_tok (st : cmdline_parser_t) (n : Option Str) :
    step st ("/TC".data) n =
      .update { st with m_default_input_type := InputType.kC } false := rfl

/-- Processing the `/TP` token. -/
theorem step_TP_tok (st : cmdline_parser_t) (n : Option Str) :
    step st ("/TP".data) n =
      .update { st with m_default_input_type := InputType.kCpp } false := rfl

/-- Processing the `/Z7` token. -/
theorem step_Z7_tok (st : cmdline_parser_t) (n : Option Str) :
    step st ("/Z7".data) n =
      .update { st with m_debug_format := DebugFormat.kObjectFile } false := rfl

/-- Processing the `/Zi` token. -/
theorem step_Zi_tok (st : cmdline_parser_t) (n : Option Str) :
    step st ("/Zi".data) n =
      .update { st with m_debug_format := DebugFormat.kSeparateFile } false := rfl

/-- Processing the `/ZI` token. -/
theorem step_ZI_tok (st : cmdline_parser_t) (n : Option Str) :
    step st ("/ZI".data) n =
      .update { st with m_debug_format := DebugFormat.kSeparateFileEditAndContinue } false := rfl

/-- Processing the `/Y-` token. -/
theorem step_Ydash_tok (st : cmdline_parser_t) (n : Option Str) :
    step st ("/Y-".data) n =
      .update { st with m_pch_config := { st.m_pch_config with ignore := true } } false := rfl

/-- Processing an unrecognized `/<option>` token: the catch-all branch
stores the option verbatim. -/
theorem step_other (st : cmdline_parser_t) (o : Str) (n : Option Str)
    (ho : optOther o) :
    step st ('/' :: o) n =
      .update { st with m_options := st.m_options ++ [o] } false := by
  obtain ⟨h1, h2, h3, h4, h5, h6, h7, h8, h9, h10, h11, h12, h13, h14, h15,
    h16, h17⟩ := ho
  simp [step, get_option, h1, h2, h3, h4, h5, h6, h7, h8, h9, h10, h11, h12,
    h13, h14, h15, h16, h17]

/-- Processing a fused `/I<path>` token with non-empty path. -/
theorem step_I_tok (st : cmdline_parser_t) (i : Str) (n : Option Str)
    (hi : ¬ i = []) :
    step st ("/I".data ++ i) n =
      .update { st with m_includes := st.m_includes ++ [sanitize_path i] } false := by
  simp [step, get_option, starts_with, retrieve_update, retrieveArg, hi]

/-- Processing a `/D <value>` token: the space-prefixed value is stored as
the define, space included. -/
theorem step_D_space (st : cmdline_parser_t) (d : Str) (n : Option Str) :
    step st ("/D ".data ++ d) n =
      .update { st with m_defines := st.m_defines ++ [' ' :: d] } false := by
  simp [step, get_option, starts_with, retrieve_update, retrieveArg]

/-- Processing a `/Yc<value>` token. -/
theorem step_Yc_tok (st : cmdline_parser_t) (v : Str) (n : Option Str) :
    step st ("/Yc".data ++ v) n =
      .update { st with m_pch_config :=
        { st.m_pch_config with create := ⟨true, sanitize_path v⟩ } } false := by
  simp [step, get_option, starts_with]

/-- Processing a `/Yu<value>` token. -/
theorem step_Yu_tok (st : cmdline_parser_t) (v : Str) (n : Option Str) :
    step st ("/Yu".data ++ v) n =
      .update { st with m_pch_config :=
        { st.m_pch_config with use := ⟨true, sanitize_path v⟩ } } false := by
  simp [step, get_option, starts_with]

/-- Processing a `/Fd:<path>` token with non-empty path. -/
theorem step_Fd_colon (st : cmdline_parser_t) (v : Str) (n : Option Str)
    (hv : ¬ v = []) :
    step st ("/Fd:".data ++ v) n =
      .update { st with m_pdb_path := sanitize_path v } false := by
  have h : ("/Fd:".data ++ v) = ("/Fd".data ++ (':' :: v)) := rfl
  rw [h, step_Fd]
  simp [drop_leading_colon, hv]

/-- Processing a `/Fo:<path>` token with non-empty path. -/
theorem step_Fo_colon (st : cmdline_parser_t) (v : Str) (n : Option Str)
    (hv : ¬ v = []) :
    step st ("/Fo:".data ++ v) n =
      .update { st with m_object_path := sanitize_path v } false := by
  have h : ("/Fo:".data ++ v) = ("/Fo".data ++ (':' :: v)) := rfl
  rw [h, step_Fo]
  simp [drop_leading_colon, hv]

/-- Processing a `/Fp:<path>` token with non-empty path. -/
theorem step_Fp_colon (st : cmdline_parser_t) (v : Str) (n : Option Str)
    (hv : ¬ v = []) :
    step st ("/Fp:".data ++ v) n =
      .update { st with m_pch_config :=
        { st.m_pch_config with path := sanitize_path v } } false := by
  have h : ("/Fp:".data ++ v) = ("/Fp".data ++ (':' :: v)) := rfl
  rw [h, step_Fp]
  simp [drop_leading_colon, hv]

/-- Processing an input-file token produced by as_arg for an inputOk
file re-appends exactly that file. -/
theorem step_input (st : cmdline_parser_t) (f : InputFile) (n : Option Str)
    (hf : inputOk f) :
    step st (InputFile.as_arg f) n =
      .update { st with m_input_files := st.m_input_files ++ [f] } false := by
  obtain ⟨nm, ty⟩ := f
  obtain ⟨hcx, hun, hob⟩ := hf
  cases ty with
  | kC =>
    have h : ¬ nm = [] ∧ sanitize_path nm = nm := hcx (Or.inl rfl)
    simp [InputFile.as_arg, step, get_option, starts_with, retrieve_update,
      retrieveArg, h.1, h.2]
  | kCpp =>
    have h : ¬ nm = [] ∧ sanitize_path nm = nm := hcx (Or.inr rfl)
    simp [InputFile.as_arg, step, get_option, starts_with, retrieve_update,
      retrieveArg, h.1, h.2]
  | kUnknown =>
    have h : get_option nm = none ∧ starts_with nm ("@".data) = false := hun rfl
    simp [InputFile.as_arg, step, h.1, h.2]
  | kObject => exact absurd rfl hob

/-- Re-parsing the emitted `/<option>` tokens of unrecognized options
appends them back verbatim. -/
theorem parse_seg_options (hdl : cmdline_parser_t → Str → Except Str cmdline_parser_t) :
    ∀ (opts : List Str), (∀ o ∈ opts, optOther o) →
    ∀ st : cmdline_parser_t,
      parseListH hdl st (opts.map (fun o => '/' :: o)) =
        .ok ({ st with m_options := st.m_options ++ opts }, false) := by
  intro opts
  induction opts with
  | nil =>
    intro _ st
    simp [parseListH]
  | cons o os ih =>
    intro hall st
    rw [List.map_cons,
        parseListH_cons_of_step hdl st _ _ _
          (fun n => step_other st o n (hall o (List.mem_cons_self _ _))),
        ih (fun o' ho' => hall o' (List.mem_cons_of_mem _ ho'))]
    simp

/-- Re-parsing the emitted fused `/I<path>` tokens appends the includes
back verbatim when they are non-empty sanitize fixed points. -/
theorem parse_seg_includes (hdl : cmdline_parser_t → Str → Except Str cmdline_parser_t) :
    ∀ (incs : List Str), (∀ i ∈ incs, ¬ i = [] ∧ sanitize_path i = i) →
    ∀ st : cmdline_parser_t,
      parseListH hdl st (incs.map (fun i => "/I".data ++ i)) =
        .ok ({ st with m_includes := st.m_includes ++ incs }, false) := by
  intro incs
  induction incs with
  | nil =>
    intro _ st
    simp [parseListH]
  | cons i is ih =>
    intro hall st
    have hi := hall i (List.mem_cons_self _ _)
    rw [List.map_cons,
        parseListH_cons_of_step hdl st _ _ _ (fun n => step_I_tok st i n hi.1),
        ih (fun i' hi' => hall i' (List.mem_cons_of_mem _ hi'))]
    simp [hi.2]

/-- Re-parsing the emitted `/D <value>` tokens appends each define with a
leading space. -/
theorem parse_seg_defines (hdl : cmdline_parser_t → Str → Except Str cmdline_parser_t) :
    ∀ (ds : List Str) (st : cmdline_parser_t),
      parseListH hdl st (ds.map (fun d_ => "/D ".data ++ d_)) =
        .ok ({ st with m_defines :=
          st.m_defines ++ ds.map (fun d_ => ' ' :: d_) }, false) := by
  intro ds
  induction ds with
  | nil =>
    intro st
    simp [parseListH]
  | cons d ds ih =>
    intro st
    rw [List.map_cons,
        parseListH_cons_of_step hdl st _ _ _ (fun n => step_D_space st d n),
        ih]
    simp

/-- Re-parsing the as_arg renderings of inputOk files appends them back
verbatim. -/
theorem parse_seg_inputs (hdl : cmdline_parser_t → Str → Except Str cmdline_parser_t) :
    ∀ (files : List InputFile), (∀ f ∈ files, inputOk f) →
    ∀ st : cmdline_parser_t,
      parseListH hdl st (files.map InputFile.as_arg) =
        .ok ({ st with m_input_files := st.m_input_files ++ files }, false) := by
  intro files
  induction files with
  | nil =>
    intro _ st
    simp [parseListH]
  | cons f fs ih =>
    intro hall st
    rw [List.map_cons,
        parseListH_cons_of_step hdl st _ _ _
          (fun n => step_input st f n (hall f (List.mem_cons_self _ _))),
        ih (fun f' hf' => hall f' (List.mem_cons_of_mem _ hf'))]
    simp

set_option maxHeartbeats 1000000 in
/-- C7 (amended): for an argument list the parser accepts with model p,
re-parsing merge(p, All) does not reproduce p exactly; it reproduces p
with every define prefixed by one space (merge renders a define as the
single token `/D <value>` and the parser stores the `/D` argument
verbatim, space included), provided p is reparse_safe: the default input
type is not Unknown, stored options stay unrecognized, emitted paths are
sanitize_path fixed points, disabled pch flags carry no value, and input
files re-render faithfully. -/
theorem reemission (fs : Str → Option (List Str)) (args : List Str)
    (p : cmdline_parser_t) (brk : Bool)
    (_hp : parse_list fs initState args = .ok (p, brk))
    (hsafe : reparse_safe p) :
    parse_list fs initState (merge p MergeMode.kAll) =
      .ok ({ p with m_defines := p.m_defines.map (fun d_ => ' ' :: d_) },
        false) := by
  clear _hp
  obtain ⟨cmp, dt, dbg, incs, defs, opts, pdb, obj,
    ⟨⟨cen, cval⟩, ⟨uen, uval⟩, ppath, pign⟩, files⟩ := p
  obtain ⟨hdt0, hopts0, hincs0, hpdb0, hobj0, hppath0, hcval0, hcen0,
    huval0, huen0, hfiles0⟩ := hsafe
  have hdt : ¬ dt = InputType.kUnknown := hdt0
  have hopts : ∀ o ∈ opts, optOther o := hopts0
  have hincs : ∀ i ∈ incs, ¬ i = [] ∧ sanitize_path i = i := hincs0
  have hpdb : sanitize_path pdb = pdb := hpdb0
  have hobj : sanitize_path obj = obj := hobj0
  have hppath : sanitize_path ppath = ppath := hppath0
  have hcval : sanitize_path cval = cval := hcval0
  have hcen : cen = false → cval = [] := hcen0
  have huval : sanitize_path uval = uval := huval0
  have huen : uen = false → uval = [] := huen0
  have hfiles : ∀ f ∈ files, inputOk f := hfiles0
  have hmerge :
      merge ⟨cmp, dt, dbg, incs, defs, opts, pdb, obj,
        ⟨⟨cen, cval⟩, ⟨uen, uval⟩, ppath, pign⟩, files⟩ MergeMode.kAll =
      (if cmp = true then ["/c".data] else [])
      ++ ((if dt = InputType.kC then ["/TC".data]
           else if dt = InputType.kCpp then ["/TP".data] else [])
      ++ ((if dbg = DebugFormat.kObjectFile then ["/Z7".data]
           else if dbg = DebugFormat.kSeparateFile then ["/Zi".data]
           else if dbg = DebugFormat.kSeparateFileEditAndContinue then ["/ZI".data]
           else [])
      ++ (opts.map (fun o => '/' :: o)
      ++ ((if pdb ≠ [] then ["/Fd:".data ++ pdb] else [])
      ++ (incs.map (fun i => "/I".data ++ i)
      ++ (defs.map (fun d_ => "/D ".data ++ d_)
      ++ ((if obj ≠ [] then ["/Fo:".data ++ obj] else [])
      ++ ((if cen = true then ["/Yc".data ++ cval] else [])
      ++ ((if uen = true then ["/Yu".data ++ uval] else [])
      ++ ((if pign = true then ["/Y-".data] else [])
      ++ ((if ppath ≠ [] then ["/Fp:".data ++ ppath] else [])
      ++ files.map InputFile.as_arg))))))))))) := by
    cases dt <;> cases dbg <;> simp [merge, List.append_assoc]
  unfold parse_list
  rw [hmerge]
  have chain : ∀ (xs ys : List Str) (st s : cmdline_parser_t),
      parseListH (parseFileB fs 100) st xs = .ok (s, false) →
      parseListH (parseFileB fs 100) st (xs ++ ys) =
        parseListH (parseFileB fs 100) s ys := by
    intro xs ys st s hx
    exact (parseListH_append' _ ys xs st s false hx).trans
      (if_neg (by decide))
  have s1 : parseListH (parseFileB fs 100) initState
      (if cmp = true then ["/c".data] else []) =
      .ok (⟨cmp, InputType.kObject, DebugFormat.kNone, [], [], [], [], [],
        ⟨⟨false, []⟩, ⟨false, []⟩, [], false⟩, []⟩, false) := by
    cases cmp <;> rfl
  have s2 : parseListH (parseFileB fs 100)
      ⟨cmp, InputType.kObject, DebugFormat.kNone, [], [], [], [], [],
        ⟨⟨false, []⟩, ⟨false, []⟩, [], false⟩, []⟩
      (if dt = InputType.kC then ["/TC".data]
       else if dt = InputType.kCpp then ["/TP".data] else []) =
      .ok (⟨cmp, dt, DebugFormat.kNone, [], [], [], [], [],
        ⟨⟨false, []⟩, ⟨false, []⟩, [], false⟩, []⟩, false) := by
    cases dt with
    | kUnknown => exact absurd rfl hdt
    | kObject => rfl
    | kC => rfl
    | kCpp => rfl
  have s3 : parseListH (parseFileB fs 100)
      ⟨cmp, dt, DebugFormat.kNone, [], [], [], [], [],
        ⟨⟨false, []⟩, ⟨false, []⟩, [], false⟩, []⟩
      (if dbg = DebugFormat.kObjectFile then ["/Z7".data]
       else if dbg = DebugFormat.kSeparateFile then ["/Zi".data]
       else if dbg = DebugFormat.kSeparateFileEditAndContinue then ["/ZI".data]
       else []) =
      .ok (⟨cmp, dt, dbg, [], [], [], [], [],
        ⟨⟨false, []⟩, ⟨false, []⟩, [], false⟩, []⟩, false) := by
    cases dbg <;> rfl
  have s4 : parseListH (parseFileB fs 100)
      ⟨cmp, dt, dbg, [], [], [], [], [],
        ⟨⟨false, []⟩, ⟨false, []⟩, [], false⟩, []⟩
      (opts.map (fun o => '/' :: o)) =
      .ok (⟨cmp, dt, dbg, [], [], opts, [], [],
        ⟨⟨false, []⟩, ⟨false, []⟩, [], false⟩, []⟩, false) :=
    parse_seg_options _ opts hopts _
  have s5 : parseListH (parseFileB fs 100)
      ⟨cmp, dt, dbg, [], [], opts, [], [],
        ⟨⟨false, []⟩, ⟨false, []⟩, [], false⟩, []⟩
      (if pdb ≠ [] then ["/Fd:".data ++ pdb] else []) =
      .ok (⟨cmp, dt, dbg, [], [], opts, pdb, [],
        ⟨⟨false, []⟩, ⟨false, []⟩, [], false⟩, []⟩, false) := by
    by_cases h0 : pdb = []
    · subst h0; rfl
    · rw [if_pos h0,
          parseListH_cons_of_step _ _ _ _ _
            (fun n => step_Fd_colon _ pdb n h0), hpdb]
      rfl
  have s6 : parseListH (parseFileB fs 100)
      ⟨cmp, dt, dbg, [], [], opts, pdb, [],
        ⟨⟨false, []⟩, ⟨false, []⟩, [], false⟩, []⟩
      (incs.map (fun i => "/I".data ++ i)) =
      .ok (⟨cmp, dt, dbg, incs, [], opts, pdb, [],
        ⟨⟨false, []⟩, ⟨false, []⟩, [], false⟩, []⟩, false) :=
    parse_seg_includes _ incs hincs _
  have s7 : parseListH (parseFileB fs 100)
      ⟨cmp, dt, dbg, incs, [], opts, pdb, [],
        ⟨⟨false, []⟩, ⟨false, []⟩, [], false⟩, []⟩
      (defs.map (fun d_ => "/D ".data ++ d_)) =
      .ok (⟨cmp, dt, dbg, incs, defs.map (fun d_ => ' ' :: d_), opts, pdb, [],
        ⟨⟨false, []⟩, ⟨false, []⟩, [], false⟩, []⟩, false) :=
    parse_seg_defines _ defs _
  have s8 : parseListH (parseFileB fs 100)
      ⟨cmp, dt, dbg, incs, defs.map (fun d_ => ' ' :: d_), opts, pdb, [],
        ⟨⟨false, []⟩, ⟨false, []⟩, [], false⟩, []⟩
      (if obj ≠ [] then ["/Fo:".data ++ obj] else []) =
      .ok (⟨cmp, dt, dbg, incs, defs.map (fun d_ => ' ' :: d_), opts, pdb, obj,
        ⟨⟨false, []⟩, ⟨false, []⟩, [], false⟩, []⟩, false) := by
    by_cases h0 : obj = []
    · subst h0; rfl
    · rw [if_pos h0,
          parseListH_cons_of_step _ _ _ _ _
            (fun n => step_Fo_colon _ obj n h0), hobj]
      rfl
  have s9 : parseListH (parseFileB fs 100)
      ⟨cmp, dt, dbg, incs, defs.map (fun d_ => ' ' :: d_), opts, pdb, obj,
        ⟨⟨false, []⟩, ⟨false, []⟩, [], false⟩, []⟩
      (if cen = true then ["/Yc".data ++ cval] else []) =
      .ok (⟨cmp, dt, dbg, incs, defs.map (fun d_ => ' ' :: d_), opts, pdb, obj,
        ⟨⟨cen, cval⟩, ⟨false, []⟩, [], false⟩, []⟩, false) := by
    cases cen
    · have hc : cval = [] := hcen rfl
      subst hc; rfl
    · rw [if_pos rfl,
          parseListH_cons_of_step _ _ _ _ _
            (fun n => step_Yc_tok _ cval n), hcval]
      rfl
  have s10 : parseListH (parseFileB fs 100)
      ⟨cmp, dt, dbg, incs, defs.map (fun d_ => ' ' :: d_), opts, pdb, obj,
        ⟨⟨cen, cval⟩, ⟨false, []⟩, [], false⟩, []⟩
      (if uen = true then ["/Yu".data ++ uval] else []) =
      .ok (⟨cmp, dt, dbg, incs, defs.map (fun d_ => ' ' :: d_), opts, pdb, obj,
        ⟨⟨cen, cval⟩, ⟨uen, uval⟩, [], false⟩, []⟩, false) := by
    cases uen
    · have hu : uval = [] := huen rfl
      subst hu; rfl
    · rw [if_pos rfl,
          parseListH_cons_of_step _ _ _ _ _
            (fun n => step_Yu_tok _ uval n), huval]
      rfl
  have s11 : parseListH (parseFileB fs 100)
      ⟨cmp, dt, dbg, incs, defs.map (fun d_ => ' ' :: d_), opts, pdb, obj,
        ⟨⟨cen, cval⟩, ⟨uen, uval⟩, [], false⟩, []⟩
      (if pign = true then ["/Y-".data] else []) =
      .ok (⟨cmp, dt, dbg, incs, defs.map (fun d_ => ' ' :: d_), opts, pdb, obj,
        ⟨⟨cen, cval⟩, ⟨uen, uval⟩, [], pign⟩, []⟩, false) := by
    cases pign <;> rfl
  have s12 : parseListH (parseFileB fs 100)
      ⟨cmp, dt, dbg, incs, defs.map (fun d_ => ' ' :: d_), opts, pdb, obj,
        ⟨⟨cen, cval⟩, ⟨uen, uval⟩, [], pign⟩, []⟩
      (if ppath ≠ [] then ["/Fp:".data ++ ppath] else []) =
      .ok (⟨cmp, dt, dbg, incs, defs.map (fun d_ => ' ' :: d_), opts, pdb, obj,
        ⟨⟨cen, cval⟩, ⟨uen, uval⟩, ppath, pign⟩, []⟩, false) := by
    by_cases h0 : ppath = []
    · subst h0; rfl
    · rw [if_pos h0,
          parseListH_cons_of_step _ _ _ _ _
            (fun n => step_Fp_colon _ ppath n h0), hppath]
      rfl
  rw [chain _ _ _ _ s1, chain _ _ _ _ s2, chain _ _ _ _ s3, chain _ _ _ _ s4,
      chain _ _ _ _ s5, chain _ _ _ _ s6, chain _ _ _ _ s7, chain _ _ _ _ s8,
      chain _ _ _ _ s9, chain _ _ _ _ s10, chain _ _ _ _ s11,
      chain _ _ _ _ s12]
  exact parse_seg_inputs _ files hfiles _

/-- C7 (counterexample): the claim says re-parsing merge(p, All) of an
accepted argument list's model p yields p again; for `cl /c /DX` the
model stores define `X`, merge emits the token `/D X`, and re-parsing
stores the define ` X` (leading space kept), so the round trip is not the
identity. -/
theorem reemission_claim_ne :
    parse_list noFs initState ["/c".data, "/DX".data] =
      .ok (⟨true, InputType.kObject, DebugFormat.kNone, [], [['X']], [], [],
        [], ⟨⟨false, []⟩, ⟨false, []⟩, [], false⟩, []⟩, false)
    ∧ ¬ (parse_list noFs initState
          (merge ⟨true, InputType.kObject, DebugFormat.kNone, [], [['X']], [],
            [], [], ⟨⟨false, []⟩, ⟨false, []⟩, [], false⟩, []⟩ MergeMode.kAll) =
        .ok (⟨true, InputType.kObject, DebugFormat.kNone, [], [['X']], [], [],
          [], ⟨⟨false, []⟩, ⟨false, []⟩, [], false⟩, []⟩, false)) := by
  decide

/-- C7 witness: for `cl /c /IA /DX foo.cpp` the re-parse of merge(All)
reproduces the model with the define spaced. -/
theorem reemission_witness :
    parse_list noFs initState (merge reparse_example MergeMode.kAll) =
      .ok ({ reparse_example with
        m_defines := reparse_example.m_defines.map (fun d_ => ' ' :: d_) },
        false) :=
  reemission noFs ["/c".data, "/IA".data, "/DX".data, "foo.cpp".data]
    reparse_example false (by decide) (by decide)

end bcache
